import Mathlib

/-!
Shallow embedding of SiMon (Simulation Monitor), `SiMon/simon.py`, for the
verification of its specification.

The embedded parts are:

* the data model of a simulation task (`Task`), whose constructor and field
  defaults live in `module_common.py` (not part of the sources) and are
  modelled from the spec;
* `SiMon.traverse_simulation_dir_tree` (`discover`, `visitDir`) and the
  `os.path.walk` recursion driving it (`walkTree`/`recurseList`);
* the status-propagation loop of `SiMon.build_simulation_tree`
  (`closureStep`, `closurePass`, `closureRun`) and `buildSimulationTree`;
* the scheduling pass `SiMon.auto_scheduler`: the concurrent-job count
  (`countConcurrent`), the niceness-ordered schedule list (`ArgsortSpec`,
  `scheduleList`), the restart-chain walk (`walkCid`) and the dispatch loop
  (`dispatchLoop`).

Modelling conventions:

* The filesystem scanned by the monitor is an explicit input: an `FSDir`
  tree.  Marker files (`SiMon.conf` with a recognized `Code_name`, the
  `ERROR` file) and the data returned by the per-code status probe
  `sim_get_status` (status, progress `t`, progress target `t_max_extended`)
  are recorded per directory in `DirData`; the disk is frozen during a pass.
* Python dictionaries with the dense integer keys `0..n` iterate their keys
  in ascending order; `sim_inst_dict` is modelled as a `List Task` kept in
  ascending-id order (new ids are appended), and in-place value updates map
  over the list (`dupdate`), preserving iteration order exactly as a Python
  dict does.
* `sim_inst_parent_dict` stores object references; it is modelled as an
  association list of `PRef` records holding the allocation generation, id
  and level of the referenced node (the only fields the traversal reads
  through it).  The generation counter `gen` models Python object identity
  across calls of `build_simulation_tree`.
* Fallible operations (a `KeyError`, the `AttributeError` raised on
  `sim_inst.id = id` when `sim_inst is None`, a non-terminating restart-chain
  walk) make the embedded functions return `none`.
-/

namespace SiMonV

/-- Modelled from the spec: the status constants of `SimulationTask`
(`module_common.py`, not among the sources): NEW, RUNNING, STOPPED, STALLED,
ERROR, DONE. -/
inductive Status where
  | NEW
  | RUN
  | STOP
  | STALL
  | ERROR
  | DONE
deriving DecidableEq, Repr

/-- Per-directory on-disk data: the probed status/progress values that
`sim_get_status` derives from the simulation output, the externally assigned
niceness, the presence of the `ERROR` marker file, and whether the directory
carries a `SiMon.conf` naming a recognized simulation code
(`Code_name in self.module_dict`). -/
structure DirData where
  status : Status
  t : Int
  tme : Int
  niceness : Int
  hasErrorFile : Bool
  recognized : Bool
deriving DecidableEq, Repr

mutual
/-- A directory subtree of the simulation root: a name, its on-disk data and
its subdirectories (in `os.listdir` order). -/
inductive FSDir where
  | node (name : String) (data : DirData) (children : FSList)

/-- A directory listing (a list of subdirectory trees). -/
inductive FSList where
  | nil
  | cons (c : FSDir) (cs : FSList)
end

def FSDir.name : FSDir → String
  | .node n _ _ => n

def FSDir.data : FSDir → DirData
  | .node _ d _ => d

def FSDir.children : FSDir → FSList
  | .node _ _ cs => cs

def FSList.toList : FSList → List FSDir
  | .nil => []
  | .cons c cs => c :: toList cs

/-- Build a directory listing from a plain list (used for concrete
examples). -/
def FSList.ofL : List FSDir → FSList
  | [] => .nil
  | c :: cs => .cons c (ofL cs)

/-- The in-memory record of one simulation task.  Fields follow
`SimulationTask` as used by `simon.py`; constructor defaults
(`cid = -1`, `parent_id = -1`, `t = 0`, `t_max_extended = 0`, `level = 0`,
`niceness = 0`) are modelled from the spec's data model (`module_common.py`
is not among the sources).  `restarts` holds the ids of the child objects
the code appends.  `errFile` records whether the node's directory carried
the `ERROR` marker when the node was created, and `gen` is the
`build_simulation_tree` call that allocated the object (both are
instrumentation of facts the Python runtime carries implicitly). -/
structure Task where
  id : Nat
  name : String
  fulldir : String
  status : Status
  parent_id : Int
  level : Nat
  cid : Int
  t : Int
  t_max_extended : Int
  niceness : Int
  restarts : List Nat
  errFile : Bool
  gen : Nat
deriving DecidableEq, Repr

instance : Inhabited Task :=
  ⟨{ id := 0, name := "", fulldir := "", status := .NEW, parent_id := -1,
     level := 0, cid := -1, t := 0, t_max_extended := 0, niceness := 0,
     restarts := [], errFile := false, gen := 0 }⟩

/-- A reference stored in `sim_inst_parent_dict`: the allocation generation,
id and level of the referenced `Task` object (the fields the traversal reads
through the reference). -/
structure PRef where
  gen : Nat
  id : Nat
  level : Nat
deriving DecidableEq, Repr

/-- The monitor state across calls: `sim_inst_dict` (ascending-id order),
`sim_inst_parent_dict` (latest registration first), the id counter
`inst_id`, and the allocation-generation counter. -/
structure MState where
  instDict : List Task
  parentDict : List (String × PRef)
  instId : Nat
  gen : Nat
deriving DecidableEq, Repr

/-- `self.sim_inst_dict[i]` (first entry whose id matches). -/
def dlookup (d : List Task) (i : Int) : Option Task :=
  d.find? (fun t => (t.id : Int) = i)

/-- In-place update of the dict entry with id `i` (a no-op where Python
would raise `KeyError`; unreachable in the states the builder produces). -/
def dupdate (d : List Task) (i : Int) (f : Task → Task) : List Task :=
  d.map (fun t => if (t.id : Int) = i then f t else t)

/-- `self.sim_inst_parent_dict[path]` (the most recent registration wins,
as in a Python dict overwrite). -/
def plookup (pd : List (String × PRef)) (path : String) : Option PRef :=
  (pd.find? (fun e => e.1 = path)).map (·.2)

/-- `Prop` holding of the value inside an `Option`, `False` on `none`. -/
def OptP (o : Option α) (Q : α → Prop) : Prop :=
  match o with
  | some a => Q a
  | none => False

instance (o : Option α) (Q : α → Prop) [∀ a, Decidable (Q a)] :
    Decidable (OptP o Q) := by
  cases o with
  | none => exact isFalse (fun h => h)
  | some a => exact inferInstanceAs (Decidable (Q a))

/-- Code-point-wise lexicographic comparison of character lists: the
ordering Python's `sorted` uses on strings (Lean's own `String.lt` is the
same ordering, but its decision procedure is opaque to the kernel, so the
model spells it out executably). -/
def charsLt : List Char → List Char → Bool
  | _, [] => false
  | [], _ :: _ => true
  | c :: cs, d :: ds =>
    if c.toNat < d.toNat then true
    else if d.toNat < c.toNat then false
    else charsLt cs ds

/-- Name order of directory entries. -/
def nameLe (a b : FSDir) : Prop :=
  charsLt a.name.data b.name.data = true ∨ a.name = b.name

instance : DecidableRel nameLe := fun a b => by
  unfold nameLe
  infer_instance

/-- `sorted(files)` of `traverse_simulation_dir_tree` (line 140): process the
entries of a directory in ascending name order. -/
def sortByName (cs : List FSDir) : List FSDir :=
  cs.insertionSort nameLe

/-- The `SimulationTask` object built for a newly discovered subdirectory
`c` of `base`: id `inst_id + 1`, probed status and progress, parent link and
level taken from the parent reference, empty restart list and no candidate. -/
def newTask (s : MState) (base : String) (c : FSDir) (pr : PRef) : Task :=
  { id := s.instId + 1, name := c.name, fulldir := base ++ "/" ++ c.name,
    status := c.data.status, parent_id := (pr.id : Int),
    level := pr.level + 1, cid := -1, t := c.data.t,
    t_max_extended := c.data.tme, niceness := c.data.niceness,
    restarts := [], errFile := c.data.hasErrorFile, gen := s.gen }

/-- The in-place mutation of the parent entry at discovery: append the child
to `restarts` (line 165) and mirror the child's probed status (line 176). -/
def regUpd (childId : Nat) (st : Status) (p : Task) : Task :=
  { p with restarts := p.restarts ++ [childId], status := st }

/-- The in-place mutation of the parent entry when the child is nominated as
restart candidate (lines 181-182). -/
def candUpd (childId : Nat) (tme : Int) (p : Task) : Task :=
  { p with cid := (childId : Int), t_max_extended := tme }

/-- `sim_inst_dict` after the discovery of subdirectory `c` of `base`:
append the new node, register it with the parent, and nominate it as the
parent's restart candidate if its progress exceeds the parent's own `t` and
its directory carries no `ERROR` marker (line 178). -/
def discoverDict (s : MState) (base : String) (c : FSDir) (pr : PRef)
    (p0 : Task) : List Task :=
  if (newTask s base c pr).t > p0.t ∧ c.data.hasErrorFile = false then
    dupdate
      (dupdate (s.instDict ++ [newTask s base c pr]) (pr.id : Int)
        (regUpd (s.instId + 1) (newTask s base c pr).status))
      (pr.id : Int)
      (candUpd (s.instId + 1) (newTask s base c pr).t_max_extended)
  else
    dupdate (s.instDict ++ [newTask s base c pr]) (pr.id : Int)
      (regUpd (s.instId + 1) (newTask s base c pr).status)

/-- The whole monitor state after a successful discovery step. -/
def discoverCore (s : MState) (base : String) (c : FSDir) (pr : PRef)
    (p0 : Task) : MState :=
  { instDict := discoverDict s base c pr p0,
    parentDict := (base ++ "/" ++ c.name,
                    ⟨s.gen, s.instId + 1, pr.level + 1⟩) :: s.parentDict,
    instId := s.instId + 1, gen := s.gen }

/-- One iteration of the body of `traverse_simulation_dir_tree`
(lines 141-182) for a subdirectory `c` of `base`: resolve the simulation
code from the per-directory config (an unrecognized or missing code leaves
`sim_inst = None`, and the subsequent `sim_inst.id = id` raises
`AttributeError`, modelled as `none`), look up the parent through
`sim_inst_parent_dict`, and perform the discovery step `discoverCore`. -/
def discover (s : MState) (base : String) (c : FSDir) : Option MState :=
  if c.data.recognized then
    match plookup s.parentDict base with
    | none => none
    | some pr =>
      match dlookup s.instDict (pr.id : Int) with
      | none => none
      | some p0 => some (discoverCore s base c pr p0)
  else none

/-- One call of the `visit` function `traverse_simulation_dir_tree` on a
directory: process its entries in sorted-name order. -/
def visitDir (s : MState) (base : String) (cs : List FSDir) :
    Option MState :=
  (sortByName cs).foldlM (fun st c => discover st base c) s

mutual
/-- `os.path.walk` rooted at subdirectory `c` of `path`: the visit call on
`c`'s directory (node creation for its sorted entries), then the recursion
into `c`'s subdirectories in listing order. -/
def walkDir (s : MState) (path : String) : FSDir → Option MState
  | .node nm _ ch =>
    match visitDir s (path ++ "/" ++ nm) ch.toList with
    | none => none
    | some s1 => walkLst s1 (path ++ "/" ++ nm) ch

/-- The recursion of `os.path.walk` over a directory listing: walk each
subdirectory in listing order, threading the monitor state. -/
def walkLst (s : MState) (path : String) : FSList → Option MState
  | .nil => some s
  | .cons c cs =>
    match walkDir s path c with
    | none => none
    | some s1 => walkLst s1 path cs
end

/-- A single iteration of the inner `for` loop of the status-propagation
pass (`build_simulation_tree`, lines 207-215) for dict key `i`, carried
state `(dict, inst_status_modified)`. -/
def closureStep (acc : List Task × Bool) (i : Nat) : List Task × Bool :=
  if i = 0 then acc
  else
    match dlookup acc.1 (i : Int) with
    | none => acc
    | some inst =>
      if inst.status = .RUN ∨ inst.status = .DONE then
        if inst.parent_id > 0 then
          match dlookup acc.1 inst.parent_id with
          | none => acc
          | some p =>
            if p.status ≠ inst.status then
              (dupdate acc.1 inst.parent_id
                 (fun q => { q with status := inst.status }), true)
            else acc
        else acc
      else acc

/-- One full pass of the status-propagation loop over all dict keys. -/
def closurePass (d : List Task) : List Task × Bool :=
  (d.map (·.id)).foldl closureStep (d, false)

/-- The `while update_needed and max_iter < 30` loop: run passes until one
makes no modification or the remaining-pass budget is exhausted; returns the
final dict and the number of passes executed. -/
def closureRun : Nat → List Task → List Task × Nat
  | 0, d => (d, 0)
  | n + 1, d =>
    match closurePass d with
    | (d1, true) =>
      match closureRun n d1 with
      | (d2, k) => (d2, k + 1)
    | (d1, false) => (d1, 1)

/-- The fresh synthetic root node of one `build_simulation_tree` call:
`SimulationTask(0, 'root', cwd, STATUS_NEW)` with generation stamp `g`. -/
def rootTask (cwd : String) (g : Nat) : Task :=
  { id := 0, name := "root", fulldir := cwd, status := .NEW,
    parent_id := -1, level := 0, cid := -1, t := 0, t_max_extended := 0,
    niceness := 0, restarts := [], errFile := false, gen := g }

/-- The monitor state at the start of a `build_simulation_tree` call
(lines 192-198): `sim_inst_dict` reset to hold only the fresh root,
the root re-registered for `cwd` in the persisting
`sim_inst_parent_dict`, and `inst_id` reset to 0. -/
def initialState (cwd : String) (s : MState) : MState :=
  ⟨[rootTask cwd (s.gen + 1)],
    (cwd, ⟨s.gen + 1, 0, 0⟩) :: s.parentDict, 0, s.gen + 1⟩

/-- `SiMon.build_simulation_tree`: reset `sim_inst_dict`, allocate a fresh
root node (id 0) for the scan root `cwd`, register it (only the root is
re-registered in `sim_inst_parent_dict`; the rest of that dict persists),
walk the directory tree, then run the status-propagation loop (30 passes
maximum). -/
def buildSimulationTree (cwd : String) (fs : FSList) (s : MState) :
    Option MState :=
  match visitDir (initialState cwd s) cwd fs.toList with
  | none => none
  | some s1 =>
    match walkLst s1 cwd fs with
    | none => none
    | some s2 =>
      some { s2 with instDict := (closureRun 30 s2.instDict).1 }

/-- The running-job count of `auto_scheduler` (lines 351-358): the number of
dict entries whose status is RUNNING and whose restart-candidate pointer is
`-1`. -/
def countConcurrent (d : List Task) : Nat :=
  (d.filter (fun t => t.status = .RUN ∧ t.cid = (-1 : Int))).length

/-- What `numpy.argsort(sim_niceness_vec)` (line 360) guarantees about its
result: the returned index vector is a permutation of `0..n-1` along which
the niceness values are non-decreasing.  Nothing more is guaranteed — the
default sort kind, quicksort, is unstable (its introsort only falls back to
insertion sort on small partitions), so for tied niceness values the
relative index order is unspecified.  The sort result is therefore modelled
as a parameter constrained by this predicate rather than as a function. -/
def ArgsortSpec (v : List Int) (idx : List Nat) : Prop :=
  idx.Perm (List.range v.length) ∧
    List.Sorted (· ≤ ·) (idx.map (fun i => v.getD i 0))

instance (v : List Int) (idx : List Nat) : Decidable (ArgsortSpec v idx) := by
  unfold ArgsortSpec
  infer_instance

/-- The schedule list of `auto_scheduler` (lines 360-364): walk the index
vector returned by the argsort (`sim_niceness_vec` is indexed by dict key,
the keys being `0..n` in ascending order) and keep the entries that are not
DONE and not the root. -/
def scheduleList (tasks : List Task) (idx : List Nat) : List Task :=
  ((idx.map (fun i => tasks.getD i default)).filter
    (fun t => t.status ≠ .DONE ∧ t.id > 0))

/-- The restart-chain walk of `auto_scheduler` (lines 382-384):
`while current_inst.cid != -1: current_inst = self.sim_inst_dict[cid]`.
Fuel-bounded; `none` models a `KeyError` or a non-terminating chain. -/
def walkCid (dict : List Task) : Nat → Task → Option Task
  | 0, t => if t.cid = (-1 : Int) then some t else none
  | fuel + 1, t =>
    if t.cid = (-1 : Int) then some t
    else
      match dlookup dict t.cid with
      | some u => walkCid dict fuel u
      | none => none

/-- An action dispatched by `auto_scheduler` on a node id. -/
inductive Event where
  | start (i : Nat)
  | restart (i : Nat)
  | backup (i : Nat)
  | kill (i : Nat)
deriving DecidableEq, Repr

/-- Start and restart dispatches occupy a concurrency slot. -/
def Event.isDispatch : Event → Prop
  | .start _ => True
  | .restart _ => True
  | _ => False

instance : ∀ e : Event, Decidable e.isDispatch := by
  intro e
  cases e <;> simp [Event.isDispatch] <;> infer_instance

/-- The dispatch loop of `auto_scheduler` (lines 366-395) over the schedule
list, threading the `concurrent_jobs` counter.  Each emitted trace entry
records the action and the counter just before and just after it.  The disk
is frozen during the pass, so the re-probe `sim.sim_get_status()` leaves
each status unchanged and the mid-loop tree rebuild following a kill
reproduces a dict equal on every field the pass reads. -/
def dispatchLoop (dict : List Task) (maxJobs : Nat) (jobs : Nat) :
    List Task → Option (List (Event × Nat × Nat))
  | [] => some []
  | sim :: rest =>
    if sim.id = 0 then dispatchLoop dict maxJobs jobs rest
    else
      match sim.status with
      | .RUN =>
        match dispatchLoop dict maxJobs jobs rest with
        | none => none
        | some tr => some ((Event.backup sim.id, jobs, jobs) :: tr)
      | .STALL =>
        match dispatchLoop dict maxJobs jobs rest with
        | none => none
        | some tr => some ((Event.kill sim.id, jobs, jobs) :: tr)
      | .STOP =>
        if jobs < maxJobs ∧ sim.level = 1 then
          match walkCid dict (dict.length + 1) sim with
          | none => none
          | some leaf =>
            match dispatchLoop dict maxJobs (jobs + 1) rest with
            | none => none
            | some tr =>
              some ((Event.restart leaf.id, jobs, jobs + 1) :: tr)
        else dispatchLoop dict maxJobs jobs rest
      | .NEW =>
        if jobs < maxJobs then
          match dispatchLoop dict maxJobs (jobs + 1) rest with
          | none => none
          | some tr => some ((Event.start sim.id, jobs, jobs + 1) :: tr)
        else dispatchLoop dict maxJobs jobs rest
      | _ => dispatchLoop dict maxJobs jobs rest

/-- One full `auto_scheduler` pass: rebuild the tree, count the running
jobs, order the dict entries along the index vector `idx` produced by the
niceness argsort (constrained by `ArgsortSpec` at the call site), and run
the dispatch loop. -/
def autoScheduler (cwd : String) (fs : FSList) (maxJobs : Nat)
    (idx : List Nat) (s : MState) :
    Option (MState × List (Event × Nat × Nat)) :=
  match buildSimulationTree cwd fs s with
  | none => none
  | some s1 =>
    let jobs := countConcurrent s1.instDict
    match dispatchLoop s1.instDict maxJobs jobs
      (scheduleList s1.instDict idx) with
    | none => none
    | some tr => some (s1, tr)

/-! ### Dictionary lemmas -/

theorem dlookup_mem {d : List Task} {i : Int} {t : Task}
    (h : dlookup d i = some t) : t ∈ d :=
  List.mem_of_find?_eq_some h

theorem dlookup_id {d : List Task} {i : Int} {t : Task}
    (h : dlookup d i = some t) : (t.id : Int) = i := by
  have := List.find?_some h
  exact of_decide_eq_true this

theorem dlookup_append_left {d l : List Task} {i : Int} {t : Task}
    (h : dlookup d i = some t) : dlookup (d ++ l) i = some t := by
  unfold dlookup at h ⊢
  rw [List.find?_append, h, Option.or]

theorem dlookup_dupdate (d : List Task) (i j : Int) (f : Task → Task)
    (hf : ∀ t, (f t).id = t.id) :
    dlookup (dupdate d i f) j
      = (dlookup d j).map (fun t => if (t.id : Int) = i then f t else t) := by
  induction d with
  | nil => rfl
  | cons a d ih =>
    unfold dlookup dupdate at *
    by_cases ha : (a.id : Int) = j
    · have hga : (((if (a.id : Int) = i then f a else a).id : Int)) = j := by
        split
        · rwa [hf]
        · exact ha
      rw [List.map_cons, List.find?_cons_of_pos _ (by simpa using hga),
          List.find?_cons_of_pos _ (by simpa using ha)]
      simp [ha]
    · have hga : ¬(((if (a.id : Int) = i then f a else a).id : Int) = j) := by
        split
        · rwa [hf]
        · exact ha
      rw [List.map_cons, List.find?_cons_of_neg _ (by simpa using hga),
          List.find?_cons_of_neg _ (by simpa using ha)]
      exact ih

theorem dupdate_map_id (d : List Task) (i : Int) (f : Task → Task)
    (hf : ∀ t, (f t).id = t.id) :
    (dupdate d i f).map (·.id) = d.map (·.id) := by
  unfold dupdate
  rw [List.map_map]
  apply List.map_congr_left
  intro t _
  simp only [Function.comp]
  split
  · exact hf t
  · rfl

theorem mem_dupdate {d : List Task} {i : Int} {f : Task → Task} {u : Task}
    (h : u ∈ dupdate d i f) :
    ∃ t ∈ d, u = if (t.id : Int) = i then f t else t := by
  unfold dupdate at h
  obtain ⟨t, ht, rfl⟩ := List.mem_map.1 h
  exact ⟨t, ht, rfl⟩

theorem dlookup_of_mem_nodup {d : List Task} {t : Task}
    (hd : (d.map (·.id)).Nodup) (ht : t ∈ d) :
    dlookup d (t.id : Int) = some t := by
  induction d with
  | nil => cases ht
  | cons a d ih =>
    rw [List.map_cons, List.nodup_cons] at hd
    rcases List.mem_cons.1 ht with rfl | ht'
    · exact List.find?_cons_of_pos _ (by simp)
    · have hne : a.id ≠ t.id := by
        intro he
        exact hd.1 (he ▸ List.mem_map_of_mem (·.id) ht')
      unfold dlookup
      rw [List.find?_cons_of_neg _ (by simp; exact fun h => hne h)]
      exact ih hd.2 ht'

/-! ### C10: the propagation loop never touches the root entry -/

theorem closureStep_keeps_zero (acc : List Task × Bool) (i : Nat) :
    dlookup (closureStep acc i).1 0 = dlookup acc.1 0 := by
  unfold closureStep
  split
  · rfl
  · split
    · rfl
    · rename_i inst _
      split
      · split
        · split
          · rfl
          · rename_i p _
            split
            · have hupd := dlookup_dupdate acc.1 inst.parent_id 0
                (fun q => { q with status := inst.status }) (fun t => rfl)
              simp only [hupd]
              cases h0 : dlookup acc.1 0 with
              | none => rfl
              | some t =>
                have hid := dlookup_id h0
                have : ¬((t.id : Int) = inst.parent_id) := by omega
                simp [this]
            · rfl
        · rfl
      · rfl

theorem foldl_closureStep_keeps_zero (ks : List Nat) :
    ∀ acc : List Task × Bool,
      dlookup (List.foldl closureStep acc ks).1 0 = dlookup acc.1 0 := by
  induction ks with
  | nil => intro acc; rfl
  | cons k ks ih =>
    intro acc
    rw [List.foldl_cons, ih (closureStep acc k), closureStep_keeps_zero]

theorem closurePass_keeps_zero (d : List Task) :
    dlookup (closurePass d).1 0 = dlookup d 0 :=
  foldl_closureStep_keeps_zero _ _

/-- C10: the status-propagation closure loop of `build_simulation_tree`
never modifies the synthetic root node: it skips dict key 0 and only
overwrites a parent entry when the child's `parent_id` is strictly positive,
so the entry with id 0 — record and status — is exactly what it was when the
loop started; the root's status can only have been set by the eager
single-hop assignment during directory discovery. -/
theorem C10_closure_never_touches_root (n : Nat) (d : List Task) :
    dlookup (closureRun n d).1 0 = dlookup d 0 := by
  induction n generalizing d with
  | zero => rfl
  | succ n ih =>
    unfold closureRun
    split
    · rename_i d1 heq
      have hz := closurePass_keeps_zero d
      rw [heq] at hz
      rcases hr : closureRun n d1 with ⟨d2, k⟩
      show dlookup d2 0 = dlookup d 0
      have hi := ih d1
      rw [hr] at hi
      exact hi.trans hz
    · rename_i d1 heq
      have hz := closurePass_keeps_zero d
      rw [heq] at hz
      exact hz

/-! ### C1: the concurrency ceiling of the dispatch loop -/

/-- C1: in any single `auto_scheduler` pass, every start dispatch (NEW node)
and every restart dispatch (top-level STOPPED node) is issued only when the
`concurrent_jobs` counter is strictly below `max_concurrent_jobs`, and the
counter is incremented by exactly one at the dispatch, so no dispatch of the
pass ever drives the counter above `max_concurrent_jobs`. -/
theorem C1_concurrency_ceiling (dict : List Task) (maxJobs : Nat)
    (jobs : Nat) (ts : List Task) (tr : List (Event × Nat × Nat))
    (h : dispatchLoop dict maxJobs jobs ts = some tr) :
    ∀ e pre post, (e, pre, post) ∈ tr → e.isDispatch →
      pre < maxJobs ∧ post = pre + 1 ∧ post ≤ maxJobs := by
  induction ts generalizing jobs tr with
  | nil =>
    unfold dispatchLoop at h
    cases h
    intro e pre post hmem
    cases hmem
  | cons sim rest ih =>
    unfold dispatchLoop at h
    split at h
    · exact ih jobs tr h
    · split at h
      · -- RUN: backup event, counter unchanged
        split at h
        · cases h
        · rename_i tr' htr'
          cases h
          intro e pre post hmem hd
          rcases List.mem_cons.1 hmem with he | hmem'
          · cases he; cases hd
          · exact ih jobs tr' htr' e pre post hmem' hd
      · -- STALL: kill event
        split at h
        · cases h
        · rename_i tr' htr'
          cases h
          intro e pre post hmem hd
          rcases List.mem_cons.1 hmem with he | hmem'
          · cases he; cases hd
          · exact ih jobs tr' htr' e pre post hmem' hd
      · -- STOP
        split at h
        · rename_i hcap
          split at h
          · cases h
          · split at h
            · cases h
            · rename_i tr' htr'
              cases h
              intro e pre post hmem hd
              rcases List.mem_cons.1 hmem with he | hmem'
              · cases he
                exact ⟨hcap.1, rfl, by omega⟩
              · exact ih (jobs + 1) tr' htr' e pre post hmem' hd
        · exact ih jobs tr h
      · -- NEW
        split at h
        · rename_i hcap
          split at h
          · cases h
          · rename_i tr' htr'
            cases h
            intro e pre post hmem hd
            rcases List.mem_cons.1 hmem with he | hmem'
            · cases he
              exact ⟨hcap, rfl, by omega⟩
            · exact ih (jobs + 1) tr' htr' e pre post hmem' hd
        · exact ih jobs tr h
      · exact ih jobs tr h

/-- A task used by the concrete scheduler witnesses: a fresh NEW top-level
node. -/
def tNew : Task :=
  { id := 2, name := "r2", fulldir := "/r/r2", status := .NEW, parent_id := 0,
    level := 1, cid := -1, t := 0, t_max_extended := 0, niceness := 2,
    restarts := [], errFile := false, gen := 1 }

/-- A task used by the concrete scheduler witnesses: a STOPPED top-level
node whose restart candidate is `tLeaf`. -/
def tStop : Task :=
  { id := 1, name := "r1", fulldir := "/r/r1", status := .STOP, parent_id := 0,
    level := 1, cid := 3, t := 0, t_max_extended := 100, niceness := 1,
    restarts := [3], errFile := false, gen := 1 }

/-- A task used by the concrete scheduler witnesses: the STOPPED leaf of
`tStop`'s restart chain. -/
def tLeaf : Task :=
  { id := 3, name := "x", fulldir := "/r/r1/x", status := .STOP, parent_id := 1,
    level := 2, cid := -1, t := 10, t_max_extended := 100, niceness := 1,
    restarts := [], errFile := false, gen := 1 }

theorem C1_concurrency_ceiling_witness :
    dispatchLoop [tStop, tNew, tLeaf] 2 0 [tStop, tNew] =
        some [(Event.restart 3, 0, 1), (Event.start 2, 1, 2)] ∧
      (Event.start 2, 1, 2) ∈
        [(Event.restart 3, 0, 1), (Event.start 2, 1, 2)] ∧
      Event.isDispatch (Event.start 2) ∧
      (1 < 2 ∧ 2 = 1 + 1 ∧ 2 ≤ 2) :=
  ⟨by decide, by decide, trivial,
    C1_concurrency_ceiling [tStop, tNew, tLeaf] 2 0 [tStop, tNew]
      [(Event.restart 3, 0, 1), (Event.start 2, 1, 2)] (by decide)
      (Event.start 2) 1 2 (by decide) trivial⟩

/-! ### C3: restart dispatches land on the leaf of the candidate chain -/

theorem walkCid_leaf {dict : List Task} :
    ∀ {fuel : Nat} {t u : Task}, walkCid dict fuel t = some u →
      u.cid = (-1 : Int) := by
  intro fuel
  induction fuel with
  | zero =>
    intro t u h
    unfold walkCid at h
    split at h
    · cases h; assumption
    · cases h
  | succ n ih =>
    intro t u h
    unfold walkCid at h
    split at h
    · cases h; assumption
    · split at h
      · exact ih h
      · cases h

/-- C3: in a scheduling pass, every restart dispatch arises from a STOPPED
schedule-list entry of level 1 (top level) handled with available capacity,
and targets the node reached by transitively following
`restart_candidate_id` pointers from it until a node with `cid = -1`; the
targeted leaf therefore has no further candidate, so restart is never
triggered on an intermediate node of a chain, and a STOPPED node that is
not top-level never gives rise to a restart dispatch of its own. -/
theorem C3_restart_chain_walk (dict : List Task) (maxJobs : Nat)
    (jobs : Nat) (ts : List Task) (tr : List (Event × Nat × Nat))
    (h : dispatchLoop dict maxJobs jobs ts = some tr) :
    ∀ i pre post, (Event.restart i, pre, post) ∈ tr →
      ∃ sim ∈ ts, sim.status = .STOP ∧ sim.level = 1 ∧ pre < maxJobs ∧
        ∃ leaf, walkCid dict (dict.length + 1) sim = some leaf ∧
          leaf.id = i ∧ leaf.cid = (-1 : Int) := by
  induction ts generalizing jobs tr with
  | nil =>
    unfold dispatchLoop at h
    cases h
    intro i pre post hmem
    cases hmem
  | cons sim rest ih =>
    unfold dispatchLoop at h
    split at h
    · intro i pre post hmem
      obtain ⟨s, hs, hrest⟩ := ih jobs tr h i pre post hmem
      exact ⟨s, List.mem_cons_of_mem _ hs, hrest⟩
    · split at h
      · split at h
        · cases h
        · rename_i tr' htr'
          cases h
          intro i pre post hmem
          rcases List.mem_cons.1 hmem with he | hmem'
          · cases he
          · obtain ⟨s, hs, hrest⟩ := ih jobs tr' htr' i pre post hmem'
            exact ⟨s, List.mem_cons_of_mem _ hs, hrest⟩
      · split at h
        · cases h
        · rename_i tr' htr'
          cases h
          intro i pre post hmem
          rcases List.mem_cons.1 hmem with he | hmem'
          · cases he
          · obtain ⟨s, hs, hrest⟩ := ih jobs tr' htr' i pre post hmem'
            exact ⟨s, List.mem_cons_of_mem _ hs, hrest⟩
      · rename_i hst
        split at h
        · rename_i hcap
          split at h
          · cases h
          · rename_i leaf hleaf
            split at h
            · cases h
            · rename_i tr' htr'
              cases h
              intro i pre post hmem
              rcases List.mem_cons.1 hmem with he | hmem'
              · cases he
                exact ⟨sim, List.mem_cons_self _ _, hst, hcap.2, hcap.1,
                  leaf, hleaf, rfl, walkCid_leaf hleaf⟩
              · obtain ⟨s, hs, hrest⟩ := ih (jobs + 1) tr' htr' i pre post hmem'
                exact ⟨s, List.mem_cons_of_mem _ hs, hrest⟩
        · intro i pre post hmem
          obtain ⟨s, hs, hrest⟩ := ih jobs tr h i pre post hmem
          exact ⟨s, List.mem_cons_of_mem _ hs, hrest⟩
      · split at h
        · split at h
          · cases h
          · rename_i tr' htr'
            cases h
            intro i pre post hmem
            rcases List.mem_cons.1 hmem with he | hmem'
            · cases he
            · obtain ⟨s, hs, hrest⟩ := ih (jobs + 1) tr' htr' i pre post hmem'
              exact ⟨s, List.mem_cons_of_mem _ hs, hrest⟩
        · intro i pre post hmem
          obtain ⟨s, hs, hrest⟩ := ih jobs tr h i pre post hmem
          exact ⟨s, List.mem_cons_of_mem _ hs, hrest⟩
      · intro i pre post hmem
        obtain ⟨s, hs, hrest⟩ := ih jobs tr h i pre post hmem
        exact ⟨s, List.mem_cons_of_mem _ hs, hrest⟩

theorem C3_restart_chain_walk_witness :
    dispatchLoop [tStop, tNew, tLeaf] 2 0 [tStop, tNew] =
        some [(Event.restart 3, 0, 1), (Event.start 2, 1, 2)] ∧
      (Event.restart 3, 0, 1) ∈
        [(Event.restart 3, 0, 1), (Event.start 2, 1, 2)] ∧
      ∃ sim ∈ [tStop, tNew], sim.status = .STOP ∧ sim.level = 1 ∧ 0 < 2 ∧
        ∃ leaf, walkCid [tStop, tNew, tLeaf] 4 sim = some leaf ∧
          leaf.id = 3 ∧ leaf.cid = (-1 : Int) :=
  ⟨by decide, by decide,
    C3_restart_chain_walk [tStop, tNew, tLeaf] 2 0 [tStop, tNew]
      [(Event.restart 3, 0, 1), (Event.start 2, 1, 2)] (by decide)
      3 0 1 (by decide)⟩

/-! ### C6: the schedule list is the niceness-sorted dispatch order -/

/-- Ascending niceness with ties broken by ascending discovery id — the
order asserted by the claim, stated here only to be refuted on ties. -/
def nidLe (t u : Task) : Prop :=
  t.niceness < u.niceness ∨ (t.niceness = u.niceness ∧ t.id ≤ u.id)

instance : DecidableRel nidLe := by
  intro t u
  unfold nidLe
  infer_instance

/-- Ascending niceness, with no constraint on ties. -/
def niceLe (t u : Task) : Prop :=
  t.niceness ≤ u.niceness

theorem map_getD_range (tasks : List Task) :
    (List.range tasks.length).map (fun i => tasks.getD i default) = tasks := by
  apply List.ext_getElem
  · simp
  · intro n h1 h2
    simp only [List.getElem_map, List.getElem_range]
    rw [List.getD_eq_getElem tasks default h2]

/-- C6 (amended): in every scheduling pass, for ANY index vector the
niceness argsort may return (a permutation of the dict keys along which
niceness is non-decreasing — all `numpy.argsort` guarantees under its
default, unstable, quicksort), the dispatch list enumerates exactly the
non-root dict entries whose status is not DONE (the filter keeps
`status != DONE` and `id > 0`), in ascending order of niceness.  No tie
order among entries of equal niceness is asserted: the sort being unstable,
ties may come out in any order (`C6_counterexample`). -/
theorem C6_schedule_priority_order (tasks : List Task) (idx : List Nat)
    (ha : ArgsortSpec (tasks.map (·.niceness)) idx) :
    List.Sorted niceLe (scheduleList tasks idx) ∧
      (scheduleList tasks idx).Perm
        (tasks.filter (fun t => t.status ≠ .DONE ∧ t.id > 0)) := by
  obtain ⟨hperm, hsort⟩ := ha
  have hlen : (tasks.map (·.niceness)).length = tasks.length :=
    List.length_map _ _
  set v := tasks.map (·.niceness) with hv
  set f : Nat → Task := fun i => tasks.getD i default with hf
  have hmemidx : ∀ i ∈ idx, i < tasks.length := by
    intro i hi
    have h2 := hperm.mem_iff.mp hi
    rw [List.mem_range] at h2
    omega
  have hnice : ∀ i, i < tasks.length → v.getD i 0 = (f i).niceness := by
    intro i hi
    show (List.map (fun x => x.niceness) tasks).getD i 0
        = (tasks.getD i default).niceness
    rw [List.getD_eq_getElem _ _ (by simpa using hi),
        List.getD_eq_getElem _ _ hi]
    simp
  constructor
  · -- sortedness by niceness
    apply List.Sorted.filter
    unfold List.Sorted at hsort ⊢
    rw [List.pairwise_map] at hsort ⊢
    refine hsort.imp_of_mem ?_
    intro i j hi hj hij
    unfold niceLe
    rw [← hnice i (hmemidx i hi), ← hnice j (hmemidx j hj)]
    exact hij
  · -- permutation with the filtered dict
    apply List.Perm.filter
    have h2 := hperm.map (fun i => tasks.getD i default)
    rw [hlen, map_getD_range tasks] at h2
    exact h2

/-- The root node used in concrete schedule-list witnesses. -/
def tRoot : Task :=
  { id := 0, name := "root", fulldir := "/r", status := .STOP, parent_id := -1,
    level := 0, cid := 2, t := 0, t_max_extended := 0, niceness := 0,
    restarts := [1, 2], errFile := false, gen := 1 }

/-- First of two dispatchable nodes with TIED niceness. -/
def tA6 : Task :=
  { id := 1, name := "a", fulldir := "/r/a", status := .STOP, parent_id := 0,
    level := 1, cid := -1, t := 0, t_max_extended := 0, niceness := 1,
    restarts := [], errFile := false, gen := 1 }

/-- Second of two dispatchable nodes with TIED niceness. -/
def tB6 : Task :=
  { id := 2, name := "b", fulldir := "/r/b", status := .NEW, parent_id := 0,
    level := 1, cid := -1, t := 0, t_max_extended := 0, niceness := 1,
    restarts := [], errFile := false, gen := 1 }

/-- C6 (counterexample to the claim as stated): the tie-break-by-ascending-
discovery-id half of the claim is not a property of the program.
`numpy.argsort`'s default quicksort is unstable, so on the niceness vector
`[0, 1, 1]` the index vector `[0, 2, 1]` — a permutation of the keys along
which niceness is non-decreasing — is a compliant result, and it yields the
dispatch list `[tB6, tA6]`: two nodes of equal niceness in DESCENDING id
order, violating the claimed tie-break. -/
theorem C6_counterexample :
    ArgsortSpec (([tRoot, tA6, tB6] : List Task).map (·.niceness)) [0, 2, 1] ∧
      scheduleList [tRoot, tA6, tB6] [0, 2, 1] = [tB6, tA6] ∧
      ¬ List.Sorted nidLe (scheduleList [tRoot, tA6, tB6] [0, 2, 1]) := by
  decide

theorem C6_schedule_priority_order_witness :
    ArgsortSpec (([tRoot, tStop, tNew] : List Task).map (·.niceness))
        [0, 1, 2] ∧
      (List.Sorted niceLe (scheduleList [tRoot, tStop, tNew] [0, 1, 2]) ∧
        (scheduleList [tRoot, tStop, tNew] [0, 1, 2]).Perm
          (([tRoot, tStop, tNew] : List Task).filter
            (fun t => t.status ≠ .DONE ∧ t.id > 0))) :=
  ⟨by decide,
    C6_schedule_priority_order [tRoot, tStop, tNew] [0, 1, 2] (by decide)⟩

/-! ### Structural invariants of the tree builder -/

/-- What a set restart-candidate pointer must reference: an entry that names
its owner `p` as parent, has strictly larger progress than `p`, and whose
directory carried no `ERROR` marker. -/
def CandQ (p c : Task) : Prop :=
  c.parent_id = (p.id : Int) ∧ p.t < c.t ∧ c.errFile = false

instance (p c : Task) : Decidable (CandQ p c) := by
  unfold CandQ
  infer_instance

/-- Invariants of `sim_inst_dict` maintained throughout a tree build of
generation `g` with id counter `instId`: every entry was allocated in this
build; ids never exceed the counter; the entry with id 0 (the root) has a
negative `parent_id`; ids are distinct; and a set restart-candidate pointer
references an entry satisfying `CandQ`. -/
def WalkInv (g instId : Nat) (d : List Task) : Prop :=
  (∀ t ∈ d, t.gen = g) ∧
  (∀ t ∈ d, t.id ≤ instId) ∧
  (∀ t ∈ d, t.id = 0 → t.parent_id < 0) ∧
  (d.map (·.id)).Nodup ∧
  (∀ p ∈ d, 0 ≤ p.cid → OptP (dlookup d p.cid) (CandQ p))

/-- `WalkInv` for a monitor state, together with the generation stamp. -/
def SInv (g : Nat) (s : MState) : Prop :=
  s.gen = g ∧ WalkInv g s.instId s.instDict

theorem dlookup_append_fresh {d : List Task} {j : Int}
    (hd : ∀ t ∈ d, (t.id : Int) ≠ j) (l : List Task) :
    dlookup (d ++ l) j = dlookup l j := by
  unfold dlookup
  rw [List.find?_append]
  have : List.find? (fun t => (t.id : Int) = j) d = none := by
    rw [List.find?_eq_none]
    intro t ht
    simpa using hd t ht
  rw [this, Option.none_or]

theorem dupdate_forall {Q : Task → Prop} {d : List Task} {i : Int}
    {f : Task → Task} (hQ : ∀ t ∈ d, Q t) (hf : ∀ t ∈ d, Q t → Q (f t)) :
    ∀ t ∈ dupdate d i f, Q t := by
  intro u hu
  obtain ⟨t, ht, rfl⟩ := mem_dupdate hu
  split
  · exact hf t ht (hQ t ht)
  · exact hQ t ht

theorem regUpd_fields (cid : Nat) (st : Status) (p : Task) :
    (regUpd cid st p).id = p.id ∧ (regUpd cid st p).gen = p.gen ∧
      (regUpd cid st p).parent_id = p.parent_id ∧
      (regUpd cid st p).cid = p.cid ∧ (regUpd cid st p).t = p.t ∧
      (regUpd cid st p).errFile = p.errFile :=
  ⟨rfl, rfl, rfl, rfl, rfl, rfl⟩

theorem candUpd_fields (cid : Nat) (tme : Int) (p : Task) :
    (candUpd cid tme p).id = p.id ∧ (candUpd cid tme p).gen = p.gen ∧
      (candUpd cid tme p).parent_id = p.parent_id ∧
      (candUpd cid tme p).t = p.t ∧
      (candUpd cid tme p).errFile = p.errFile ∧
      (candUpd cid tme p).cid = (cid : Int) :=
  ⟨rfl, rfl, rfl, rfl, rfl, rfl⟩

theorem OptP_dlookup_append {d : List Task} {j : Int} {Q : Task → Prop}
    (h : OptP (dlookup d j) Q) (l : List Task) :
    OptP (dlookup (d ++ l) j) Q := by
  cases hd : dlookup d j with
  | none => rw [hd] at h; cases h
  | some x =>
    rw [hd] at h
    rw [dlookup_append_left hd]
    exact h

theorem OptP_dlookup_dupdate {d : List Task} {j i : Int} {Q : Task → Prop}
    (f : Task → Task) (hfid : ∀ t, (f t).id = t.id)
    (hQ : ∀ t, Q t → Q (f t)) (h : OptP (dlookup d j) Q) :
    OptP (dlookup (dupdate d i f) j) Q := by
  rw [dlookup_dupdate d i j f hfid]
  cases hd : dlookup d j with
  | none => rw [hd] at h; cases h
  | some x =>
    rw [hd] at h
    show Q (if (x.id : Int) = i then f x else x)
    split
    · exact hQ x h
    · exact h

theorem dupdate_dupdate (d : List Task) (i : Int) (f f' : Task → Task)
    (hfid : ∀ t, (f t).id = t.id) :
    dupdate (dupdate d i f) i f' = dupdate d i (fun t => f' (f t)) := by
  unfold dupdate
  rw [List.map_map]
  apply List.map_congr_left
  intro t _
  simp only [Function.comp]
  by_cases h : (t.id : Int) = i
  · rw [if_pos h, if_pos (by rw [hfid]; exact h), if_pos h]
  · rw [if_neg h, if_neg h, if_neg h]

theorem CandQ_congr {p p' c : Task} (hid : p'.id = p.id) (ht : p'.t = p.t)
    (h : CandQ p c) : CandQ p' c := by
  unfold CandQ at *
  rw [hid, ht]
  exact h

theorem discoverDict_inv {g : Nat} {s : MState} {b : String} {c : FSDir}
    {pr : PRef} {p0 : Task} (hW : WalkInv g s.instId s.instDict)
    (hgen : s.gen = g) (hp0 : dlookup s.instDict (pr.id : Int) = some p0) :
    WalkInv g (s.instId + 1) (discoverDict s b c pr p0) := by
  obtain ⟨hG, hB, hR, hN, hC⟩ := hW
  have hp0d : p0 ∈ s.instDict := dlookup_mem hp0
  have hp0id : (p0.id : Int) = (pr.id : Int) := dlookup_id hp0
  have hnid : (newTask s b c pr).id = s.instId + 1 := rfl
  have hfresh : ∀ t ∈ s.instDict,
      (t.id : Int) ≠ ((s.instId + 1 : Nat) : Int) := by
    intro t ht
    have := hB t ht
    omega
  have hnpid : ((newTask s b c pr).id : Int) ≠ (pr.id : Int) := by
    rw [hnid]
    have := hB p0 hp0d
    omega
  have hmem1 : ∀ t ∈ s.instDict ++ [newTask s b c pr],
      t ∈ s.instDict ∨ t = newTask s b c pr := by
    intro t ht
    rcases List.mem_append.1 ht with h | h
    · exact Or.inl h
    · exact Or.inr (List.mem_singleton.1 h)
  have hlknew1 : dlookup (s.instDict ++ [newTask s b c pr])
      ((s.instId + 1 : Nat) : Int) = some (newTask s b c pr) := by
    rw [dlookup_append_fresh hfresh]
    exact List.find?_cons_of_pos _ (by simp [hnid])
  -- the dict after discovery is a single in-place update of the appended
  -- list, by an update function depending on the candidacy test
  have hsplit : ∀ (P : List Task → Prop),
      (∀ F : Task → Task,
        (∀ t, (F t).id = t.id) → (∀ t, (F t).t = t.t) →
        (∀ t, (F t).parent_id = t.parent_id) →
        (∀ t, (F t).errFile = t.errFile) →
        (∀ t, (F t).gen = t.gen) →
        ((F p0).cid = p0.cid ∨
          ((F p0).cid = ((s.instId + 1 : Nat) : Int) ∧
            p0.t < (newTask s b c pr).t ∧
            (newTask s b c pr).errFile = false)) →
        P (dupdate (s.instDict ++ [newTask s b c pr]) (pr.id : Int) F)) →
      P (discoverDict s b c pr p0) := by
    intro P hF
    unfold discoverDict
    split
    · rename_i hcand
      rw [dupdate_dupdate (s.instDict ++ [newTask s b c pr]) (pr.id : Int)
        (regUpd (s.instId + 1) (newTask s b c pr).status)
        (candUpd (s.instId + 1) (newTask s b c pr).t_max_extended)
        (fun t => rfl)]
      exact hF _ (fun t => rfl) (fun t => rfl) (fun t => rfl) (fun t => rfl)
        (fun t => rfl) (Or.inr ⟨rfl, hcand.1, hcand.2⟩)
    · exact hF _ (fun t => rfl) (fun t => rfl) (fun t => rfl) (fun t => rfl)
        (fun t => rfl) (Or.inl rfl)
  refine hsplit _ ?_
  intro F hFid hFt hFpar hFerr hFgen hFcid
  have hbase : ∀ (Q : Task → Prop), (∀ t ∈ s.instDict, Q t) →
      Q (newTask s b c pr) → (∀ t, Q t → Q (F t)) →
      ∀ t ∈ dupdate (s.instDict ++ [newTask s b c pr]) (pr.id : Int) F,
        Q t := by
    intro Q hQd hQn hQF
    refine dupdate_forall ?_ (fun t _ h => hQF t h)
    intro t ht
    rcases hmem1 t ht with h | rfl
    · exact hQd t h
    · exact hQn
  refine ⟨?_, ?_, ?_, ?_, ?_⟩
  · -- generations
    refine hbase _ (fun t ht => hG t ht) hgen ?_
    intro t ht
    rw [hFgen]
    exact ht
  · -- id bound
    refine hbase _ (fun t ht => Nat.le_succ_of_le (hB t ht)) (le_of_eq hnid)
      ?_
    intro t ht
    rw [hFid]
    exact ht
  · -- root's parent_id is negative
    refine hbase _ (fun t ht => hR t ht) ?_ ?_
    · intro h0
      rw [hnid] at h0
      omega
    · intro t ht h0
      rw [hFpar]
      rw [hFid] at h0
      exact ht h0
  · -- ids distinct
    rw [dupdate_map_id _ _ F hFid, List.map_append]
    rw [List.nodup_append]
    refine ⟨hN, List.nodup_singleton _, ?_⟩
    intro a ha hb
    simp only [List.map_cons, List.map_nil, List.mem_singleton] at hb
    obtain ⟨t, ht, rfl⟩ := List.mem_map.1 ha
    have := hB t ht
    rw [hb, hnid] at this
    omega
  · -- candidate pointers
    intro q hq hqc
    have hQtrans : ∀ w t, CandQ w t → CandQ w (F t) := by
      intro w t ht
      unfold CandQ at *
      rw [hFpar, hFt, hFerr]
      exact ht
    obtain ⟨w, hw, hqw⟩ := mem_dupdate hq
    rcases hmem1 w hw with hwd | rfl
    · by_cases hwid : (w.id : Int) = (pr.id : Int)
      · -- `w` is the parent entry, i.e. `p0`
        have hwp0 : w = p0 := by
          have h1 := dlookup_of_mem_nodup hN hwd
          rw [hwid] at h1
          rw [h1] at hp0
          exact Option.some_inj.1 hp0
        rw [if_pos hwid] at hqw
        have hqid : q.id = p0.id := by rw [hqw, hFid, hwp0]
        have hqt : q.t = p0.t := by rw [hqw, hFt, hwp0]
        rcases hFcid with hFc | ⟨hFc, hlt, herr⟩
        · -- pointer unchanged: transport the parent's old pointer
          have hqcid : q.cid = p0.cid := by rw [hqw, hwp0, hFc]
          have h2 : 0 ≤ p0.cid := by rw [← hqcid]; exact hqc
          have h4 : OptP (dlookup
              (dupdate (s.instDict ++ [newTask s b c pr]) (pr.id : Int) F)
              p0.cid) (CandQ p0) :=
            OptP_dlookup_dupdate F hFid (hQtrans p0)
              (OptP_dlookup_append (hC p0 hp0d h2) [newTask s b c pr])
          rw [hqcid]
          cases hlk : dlookup
              (dupdate (s.instDict ++ [newTask s b c pr]) (pr.id : Int) F)
              p0.cid with
          | none => rw [hlk] at h4; cases h4
          | some x =>
            rw [hlk] at h4
            exact CandQ_congr hqid hqt h4
        · -- nominated: the pointer targets the fresh node
          have hqcid : q.cid = ((s.instId + 1 : Nat) : Int) := by
            rw [hqw, hwp0, hFc]
          rw [hqcid]
          have hlkD : dlookup
              (dupdate (s.instDict ++ [newTask s b c pr]) (pr.id : Int) F)
              ((s.instId + 1 : Nat) : Int) = some (newTask s b c pr) := by
            rw [dlookup_dupdate _ _ _ F hFid, hlknew1]
            show some (if ((newTask s b c pr).id : Int) = (pr.id : Int)
              then F (newTask s b c pr) else newTask s b c pr)
                = some (newTask s b c pr)
            rw [if_neg hnpid]
          rw [hlkD]
          show CandQ q (newTask s b c pr)
          refine ⟨?_, ?_, herr⟩
          · show (newTask s b c pr).parent_id = (q.id : Int)
            rw [hqid]
            show (pr.id : Int) = (p0.id : Int)
            exact hp0id.symm
          · rw [hqt]
            exact hlt
      · -- untouched old entry
        rw [if_neg hwid] at hqw
        subst hqw
        exact OptP_dlookup_dupdate F hFid (hQtrans q)
          (OptP_dlookup_append (hC q hwd hqc) [newTask s b c pr])
    · -- the fresh node itself: its cid is -1
      rw [if_neg hnpid] at hqw
      subst hqw
      have hcidn : (newTask s b c pr).cid = -1 := rfl
      rw [hcidn] at hqc
      omega


theorem dupdate_statusOnly_walkinv {g iid : Nat} {d : List Task} {i : Int}
    {f : Task → Task}
    (hfid : ∀ t, (f t).id = t.id) (hft : ∀ t, (f t).t = t.t)
    (hfpar : ∀ t, (f t).parent_id = t.parent_id)
    (hferr : ∀ t, (f t).errFile = t.errFile)
    (hfgen : ∀ t, (f t).gen = t.gen) (hfcid : ∀ t, (f t).cid = t.cid)
    (h : WalkInv g iid d) : WalkInv g iid (dupdate d i f) := by
  obtain ⟨hG, hB, hR, hN, hC⟩ := h
  refine ⟨?_, ?_, ?_, ?_, ?_⟩
  · refine dupdate_forall hG ?_
    intro t _ ht
    rw [hfgen]
    exact ht
  · refine dupdate_forall hB ?_
    intro t _ ht
    rw [hfid]
    exact ht
  · refine dupdate_forall hR ?_
    intro t _ ht h0
    rw [hfpar]
    rw [hfid] at h0
    exact ht h0
  · rw [dupdate_map_id _ _ f hfid]
    exact hN
  · intro q hq hqc
    obtain ⟨w, hw, hqw⟩ := mem_dupdate hq
    have hqid : q.id = w.id := by
      rw [hqw]
      split
      · rw [hfid]
      · rfl
    have hqt : q.t = w.t := by
      rw [hqw]
      split
      · rw [hft]
      · rfl
    have hqcid : q.cid = w.cid := by
      rw [hqw]
      split
      · rw [hfcid]
      · rfl
    have hQtrans : ∀ t, CandQ w t → CandQ w (f t) := by
      intro t ht
      unfold CandQ at *
      rw [hfpar, hft, hferr]
      exact ht
    have h4 : OptP (dlookup (dupdate d i f) w.cid) (CandQ w) :=
      OptP_dlookup_dupdate f hfid hQtrans
        (hC w hw (by rw [← hqcid]; exact hqc))
    rw [hqcid]
    cases hlk : dlookup (dupdate d i f) w.cid with
    | none => rw [hlk] at h4; cases h4
    | some x =>
      rw [hlk] at h4
      exact CandQ_congr hqid hqt h4

theorem closureStep_walkinv {g iid : Nat} {acc : List Task × Bool} {i : Nat}
    (h : WalkInv g iid acc.1) : WalkInv g iid (closureStep acc i).1 := by
  unfold closureStep
  split
  · exact h
  · split
    · exact h
    · split
      · split
        · split
          · exact h
          · split
            · exact dupdate_statusOnly_walkinv (fun t => rfl) (fun t => rfl)
                (fun t => rfl) (fun t => rfl) (fun t => rfl) (fun t => rfl) h
            · exact h
        · exact h
      · exact h

theorem closurePass_walkinv {g iid : Nat} {d : List Task}
    (h : WalkInv g iid d) : WalkInv g iid (closurePass d).1 := by
  unfold closurePass
  generalize (d.map (·.id)) = ks
  have : ∀ (ks : List Nat) (acc : List Task × Bool), WalkInv g iid acc.1 →
      WalkInv g iid (List.foldl closureStep acc ks).1 := by
    intro ks
    induction ks with
    | nil => intro acc h; exact h
    | cons k ks ih =>
      intro acc h
      rw [List.foldl_cons]
      exact ih _ (closureStep_walkinv h)
  exact this ks (d, false) h

theorem closureRun_walkinv {g iid : Nat} {d : List Task} (n : Nat)
    (h : WalkInv g iid d) : WalkInv g iid (closureRun n d).1 := by
  induction n generalizing d with
  | zero => exact h
  | succ n ih =>
    unfold closureRun
    split
    · rename_i d1 heq
      have h1 : WalkInv g iid d1 := by
        have := closurePass_walkinv h
        rw [heq] at this
        exact this
      rcases hr : closureRun n d1 with ⟨d2, k⟩
      show WalkInv g iid d2
      have := ih h1
      rw [hr] at this
      exact this
    · rename_i d1 heq
      have := closurePass_walkinv h
      rw [heq] at this
      exact this

theorem discover_inv {g : Nat} {s : MState} {b : String} {c : FSDir}
    {s' : MState} (hP : SInv g s) (h : discover s b c = some s') :
    SInv g s' := by
  obtain ⟨hgen, hW⟩ := hP
  unfold discover at h
  split at h
  · split at h
    · cases h
    · rename_i pr hpr
      split at h
      · cases h
      · rename_i p0 hp0
        cases h
        exact ⟨hgen, discoverDict_inv hW hgen hp0⟩
  · cases h

theorem foldlM_discover_inv {g : Nat} {b : String} :
    ∀ (l : List FSDir) (s s' : MState), SInv g s →
      List.foldlM (fun st c => discover st b c) s l = some s' → SInv g s' := by
  intro l
  induction l with
  | nil =>
    intro s s' hP h
    rw [List.foldlM_nil] at h
    cases h
    exact hP
  | cons c l ih =>
    intro s s' hP h
    rw [List.foldlM_cons] at h
    cases hd : discover s b c with
    | none => rw [hd] at h; cases h
    | some s1 =>
      rw [hd] at h
      exact ih s1 s' (discover_inv hP hd) h

theorem visitDir_inv {g : Nat} {s : MState} {b : String} {cs : List FSDir}
    {s' : MState} (hP : SInv g s) (h : visitDir s b cs = some s') :
    SInv g s' :=
  foldlM_discover_inv (sortByName cs) s s' hP h

mutual
theorem walkDir_inv {g : Nat} (s : MState) (path : String) (c : FSDir)
    (s' : MState) (hP : SInv g s) (h : walkDir s path c = some s') :
    SInv g s' := by
  match c with
  | .node nm dt ch =>
    unfold walkDir at h
    split at h
    · cases h
    · rename_i s1 hv
      exact walkLst_inv s1 (path ++ "/" ++ nm) ch s' (visitDir_inv hP hv) h

theorem walkLst_inv {g : Nat} (s : MState) (path : String) (l : FSList)
    (s' : MState) (hP : SInv g s) (h : walkLst s path l = some s') :
    SInv g s' := by
  match l with
  | .nil =>
    unfold walkLst at h
    cases h
    exact hP
  | .cons c cs =>
    unfold walkLst at h
    split at h
    · cases h
    · rename_i s1 hw
      exact walkLst_inv s1 path cs s' (walkDir_inv s path c s1 hP hw) h
end

/-- Every successful `build_simulation_tree` call yields a state of the next
generation that satisfies the structural invariants `WalkInv`. -/
theorem build_inv {cwd : String} {fs : FSList} {s s' : MState}
    (h : buildSimulationTree cwd fs s = some s') : SInv (s.gen + 1) s' := by
  unfold buildSimulationTree at h
  split at h
  · cases h
  · rename_i s1 hv
    split at h
    · cases h
    · rename_i s2 hw
      cases h
      have hinit : SInv (s.gen + 1) (initialState cwd s) := by
        unfold initialState rootTask
        refine ⟨rfl, ?_, ?_, ?_, ?_, ?_⟩
        · intro t ht
          rw [List.mem_singleton] at ht
          rw [ht]
        · intro t ht
          rw [List.mem_singleton] at ht
          rw [ht]
        · intro t ht _
          rw [List.mem_singleton] at ht
          rw [ht]
          show (-1 : Int) < 0
          omega
        · exact List.nodup_singleton _
        · intro p hp hpc
          rw [List.mem_singleton] at hp
          rw [hp] at hpc
          have h1 : (0 : Int) ≤ -1 := hpc
          omega
      have h2 := walkLst_inv s1 cwd fs s2 (visitDir_inv hinit hv) hw
      exact ⟨h2.1, closureRun_walkinv 30 h2.2⟩

/-! ### Concrete filesystems used by witnesses and counterexamples -/

/-- The monitor state as created by `SiMon.__init__`: both dicts empty. -/
def s0 : MState := ⟨[], [], 0, 0⟩

/-- Two top-level directories: `a` probing RUNNING, `b` probing STOPPED. -/
def fsC2 : FSList :=
  .ofL [.node "a" ⟨.RUN, 10, 110, 1, false, true⟩ .nil,
        .node "b" ⟨.STOP, 5, 105, 2, false, true⟩ .nil]

/-- A single top-level directory with no recognizable `SiMon.conf`. -/
def fsC4 : FSList := .ofL [.node "bad" ⟨.NEW, 0, 0, 1, false, false⟩ .nil]

/-- A STOPPED top-level job `p` (progress 0) with two error-free restart
subdirectories: `a` at progress 10 and `b` at progress 5. -/
def fsC5 : FSList :=
  .ofL [.node "p" ⟨.STOP, 0, 100, 1, false, true⟩
    (.ofL [.node "a" ⟨.STOP, 10, 110, 1, false, true⟩ .nil,
           .node "b" ⟨.STOP, 5, 105, 1, false, true⟩ .nil])]

/-- One top-level directory `a`, present in the first cycle only. -/
def fsC9 : FSList := .ofL [.node "a" ⟨.STOP, 1, 101, 1, false, true⟩ .nil]

/-- A STOPPED top-level job `p` with a RUNNING restart child `c`. -/
def fsW2 : FSList :=
  .ofL [.node "p" ⟨.STOP, 0, 100, 1, false, true⟩
    (.ofL [.node "c" ⟨.RUN, 10, 110, 1, false, true⟩ .nil])]

/-! ### C9: what survives a rebuild -/

/-- C9 (counterexample to the claim as stated): after a first build that
discovered directory `a` and a second build over a filesystem in which `a`
is gone, the path-to-node map still holds the reference registered for `a`
in generation 1 — a Task Node object created during the previous cycle
remains reachable through `sim_inst_parent_dict` (generation 1 < current
generation 2). -/
theorem C9_counterexample :
    OptP ((buildSimulationTree "/r" fsC9 s0) >>= buildSimulationTree "/r" FSList.nil)
      (fun s2 => s2.gen = 2 ∧
        plookup s2.parentDict "/r/a" = some ⟨1, 1, 1⟩) := by decide

/-- C9 (amended): every `build_simulation_tree` call does rebuild the
id-to-node map (and with it the tree root, its entry of id 0) from scratch:
after the call, every entry of `sim_inst_dict` carries the current
allocation generation.  The path-to-node map `sim_inst_parent_dict` is NOT
cleared, however: entries for paths not re-discovered in the current cycle
keep referencing the previous cycles' node objects. -/
theorem C9_instDict_fresh (cwd : String) (fs : FSList) (s s' : MState)
    (h : buildSimulationTree cwd fs s = some s') :
    s'.gen = s.gen + 1 ∧ ∀ t ∈ s'.instDict, t.gen = s'.gen := by
  have hi := build_inv h
  refine ⟨hi.1, ?_⟩
  intro t ht
  rw [hi.1]
  exact hi.2.1 t ht

/-- The state produced by building over `fsC9`. -/
def sC9 : MState := (buildSimulationTree "/r" fsC9 s0).getD s0

theorem C9_instDict_fresh_witness :
    buildSimulationTree "/r" fsC9 s0 = some sC9 ∧
      (sC9.gen = s0.gen + 1 ∧ ∀ t ∈ sC9.instDict, t.gen = sC9.gen) :=
  ⟨by decide, C9_instDict_fresh "/r" fsC9 s0 sC9 (by decide)⟩

/-! ### C5: which child the restart-candidate pointer references -/

/-- C5 (counterexample to the claim as stated): building over `fsC5`, the
parent `p` (id 1, progress 0) ends with `cid = 3` — the id of child `b`
(progress 5) — although its sibling `a` (id 2, progress 10, no error
marker) is more advanced.  The nomination test compares each child against
the parent's own `t`, not against the current candidate's progress, so the
last qualifying child in scan order wins and the pointer need not reference
the most advanced error-free child. -/
theorem C5_counterexample :
    OptP (buildSimulationTree "/r" fsC5 s0) (fun s' =>
      OptP (dlookup s'.instDict 1) (fun p =>
        p.cid = 3 ∧
        OptP (dlookup s'.instDict 3) (fun bNode =>
          OptP (dlookup s'.instDict 2) (fun aNode =>
            aNode.parent_id = 1 ∧ bNode.parent_id = 1 ∧
              aNode.errFile = false ∧ bNode.t < aNode.t)))) := by decide

/-- C5 (amended): during tree building a newly discovered node is nominated
as its parent's restart candidate exactly when its `current_progress`
exceeds the PARENT'S OWN recorded progress `t` (not the current candidate's)
and no `ERROR` marker file is present; consequently a set
`restart_candidate_id` references the most recently discovered error-free
child whose progress exceeds the parent's own — a child that names the
parent, has strictly larger progress than the parent, and carries no error
marker, but not necessarily the most advanced such child. -/
theorem C5_candidate_exceeds_parent (cwd : String) (fs : FSList)
    (s s' : MState) (h : buildSimulationTree cwd fs s = some s') :
    ∀ p ∈ s'.instDict, 0 ≤ p.cid →
      OptP (dlookup s'.instDict p.cid) (CandQ p) :=
  fun p hp hpc => (build_inv h).2.2.2.2.2 p hp hpc

/-- The state produced by building over `fsC5`. -/
def sC5 : MState := (buildSimulationTree "/r" fsC5 s0).getD s0

theorem C5_candidate_exceeds_parent_witness :
    buildSimulationTree "/r" fsC5 s0 = some sC5 ∧
      (∀ p ∈ sC5.instDict, 0 ≤ p.cid →
        OptP (dlookup sC5.instDict p.cid) (CandQ p)) :=
  ⟨by decide, C5_candidate_exceeds_parent "/r" fsC5 s0 sC5 (by decide)⟩

/-! ### C4: a directory without a recognized code type crashes the build -/

/-- C4: when a scanned subdirectory has no per-directory `SiMon.conf` (or an
unrecognized `Code_name`), `sim_inst` stays `None`; the very next statement
`sim_inst.id = id` (line 160) raises `AttributeError`, aborting the whole
build — the builder does NOT retain a degraded node and continue.  The
model evaluates the build at such an input to the crash value `none`. -/
theorem C4_unrecognized_crash :
    buildSimulationTree "/r" fsC4 s0 = none := by decide

/-! ### C2: status-propagation closure -/

/-- Strict ancestry inside a dict: `Anc d t a` holds when `a` is reached
from `t` by following `parent_id` links one or more times. -/
inductive Anc (d : List Task) : Task → Task → Prop where
  | parent {t p : Task} : dlookup d t.parent_id = some p → Anc d t p
  | step {t u p : Task} : Anc d t u → dlookup d u.parent_id = some p →
      Anc d t p

theorem closureStep_cases (acc : List Task × Bool) (i : Nat) :
    closureStep acc i = acc ∨ (closureStep acc i).2 = true := by
  unfold closureStep
  split
  · exact Or.inl rfl
  · split
    · exact Or.inl rfl
    · split
      · split
        · split
          · exact Or.inl rfl
          · split
            · exact Or.inr rfl
            · exact Or.inl rfl
        · exact Or.inl rfl
      · exact Or.inl rfl

theorem closureStep_flag_mono {acc : List Task × Bool} {i : Nat}
    (h : acc.2 = true) : (closureStep acc i).2 = true := by
  rcases closureStep_cases acc i with he | ht
  · rw [he]; exact h
  · exact ht

theorem closureStep_noflag {acc : List Task × Bool} {i : Nat}
    (h : (closureStep acc i).2 = false) : closureStep acc i = acc := by
  rcases closureStep_cases acc i with he | ht
  · exact he
  · rw [h] at ht; cases ht

theorem foldl_flag_mono (ks : List Nat) :
    ∀ acc : List Task × Bool, acc.2 = true →
      (List.foldl closureStep acc ks).2 = true := by
  induction ks with
  | nil => intro acc h; exact h
  | cons k ks ih =>
    intro acc h
    rw [List.foldl_cons]
    exact ih _ (closureStep_flag_mono h)

theorem foldl_clean_steps (ks : List Nat) :
    ∀ acc : List Task × Bool,
      (List.foldl closureStep acc ks).2 = false →
      List.foldl closureStep acc ks = acc ∧
        ∀ i ∈ ks, closureStep acc i = acc := by
  induction ks with
  | nil =>
    intro acc h
    exact ⟨rfl, fun i hi => absurd hi (List.not_mem_nil i)⟩
  | cons k ks ih =>
    intro acc h
    rw [List.foldl_cons] at h
    have hflag : (closureStep acc k).2 = false := by
      cases hx : (closureStep acc k).2 with
      | false => rfl
      | true =>
        have := foldl_flag_mono ks _ hx
        rw [this] at h
        cases h
    have hid := closureStep_noflag hflag
    rw [hid] at h
    obtain ⟨he, hall⟩ := ih acc h
    refine ⟨by rw [List.foldl_cons, hid]; exact he, ?_⟩
    intro i hi
    rcases List.mem_cons.1 hi with rfl | hi'
    · exact hid
    · exact hall i hi'

theorem closureStep_clean_cond {d : List Task} {i : Nat}
    (h : closureStep (d, false) i = (d, false)) (hi : i ≠ 0)
    {inst : Task} (hl : dlookup d (i : Int) = some inst)
    (hrd : inst.status = .RUN ∨ inst.status = .DONE)
    (hpid : inst.parent_id > 0) {p : Task}
    (hp : dlookup d inst.parent_id = some p) : p.status = inst.status := by
  by_contra hne
  unfold closureStep at h
  rw [if_neg hi] at h
  simp only [hl, hp, if_pos hrd, if_pos hpid, if_pos hne] at h
  have := congrArg Prod.snd h
  simp at this

theorem closurePass_clean {d : List Task}
    (hc : (closurePass d).2 = false) :
    ∀ (j : Int) (t : Task), dlookup d j = some t → t.id ≠ 0 →
      (t.status = .RUN ∨ t.status = .DONE) → t.parent_id > 0 →
      ∀ p, dlookup d t.parent_id = some p → p.status = t.status := by
  intro j t hl ht0 hrd hpid p hp
  have hmem : t ∈ d := dlookup_mem hl
  have hid : (t.id : Int) = j := dlookup_id hl
  have hkey : t.id ∈ d.map (·.id) := List.mem_map_of_mem _ hmem
  unfold closurePass at hc
  obtain ⟨_, hall⟩ := foldl_clean_steps _ _ hc
  have hstep := hall t.id hkey
  exact closureStep_clean_cond hstep ht0 (hid ▸ hl) hrd hpid hp

theorem anc_closure {d : List Task}
    (hroot : ∀ t ∈ d, t.id = 0 → t.parent_id < 0)
    (hc : (closurePass d).2 = false) :
    ∀ (j : Int) (t : Task), dlookup d j = some t →
      (t.status = .RUN ∨ t.status = .DONE) →
      ∀ a, Anc d t a → (a ∈ d ∧ ∃ i, dlookup d i = some a) ∧
        (a.id ≠ 0 → a.status = t.status) := by
  intro j t hl hrd a hanc
  induction hanc with
  | parent hp =>
    rename_i p
    refine ⟨⟨dlookup_mem hp, _, hp⟩, ?_⟩
    intro hp0
    have hpid : (p.id : Int) = t.parent_id := dlookup_id hp
    have hpos : t.parent_id > 0 := by omega
    have ht0 : t.id ≠ 0 := by
      intro h0
      have := hroot t (dlookup_mem hl) h0
      omega
    exact closurePass_clean hc j t hl ht0 hrd hpos p hp
  | step hanc hp ih =>
    rename_i u p
    obtain ⟨⟨hud, i, hui⟩, hustat⟩ := ih
    refine ⟨⟨dlookup_mem hp, _, hp⟩, ?_⟩
    intro hp0
    have hpid : (p.id : Int) = u.parent_id := dlookup_id hp
    have hpos : u.parent_id > 0 := by omega
    have hu0 : u.id ≠ 0 := by
      intro h0
      have := hroot u hud h0
      omega
    have hus := hustat hu0
    have hurd : u.status = .RUN ∨ u.status = .DONE := by
      rw [hus]
      exact hrd
    have hps := closurePass_clean hc i u hui hu0 hurd hpos p hp
    rw [hps, hus]

/-- C2 (counterexample to the claim as stated): building over `fsC2` — two
top-level directories, `a` probing RUNNING, `b` probing STOPPED — node `a`
ends RUNNING while its strict ancestor, the synthetic root (id 0), ends
STOPPED: the eager single-hop assignment left the root mirroring the last
discovered top-level child, and the closure loop never pushes onto the
root.  The closure property "every strict ancestor INCLUDING the root is
RUNNING or DONE" is false. -/
theorem C2_counterexample :
    OptP (buildSimulationTree "/r" fsC2 s0) (fun s' =>
      OptP (dlookup s'.instDict 1) (fun a =>
        a.status = Status.RUN ∧ a.parent_id = 0 ∧
        OptP (dlookup s'.instDict 0) (fun r =>
          ¬(r.status = Status.RUN ∨ r.status = Status.DONE)))) := by decide

/-- C2 (amended): after `build_simulation_tree` completes — whenever its
status-propagation loop actually reached its fixed point (a pass with no
change, e.g. guaranteed for forests of depth at most 29 with uniform
RUNNING/DONE statuses) — every node whose status is RUNNING or DONE has all
its strict ancestors OTHER THAN the synthetic root (id 0) with status
RUNNING or DONE (indeed equal to the node's status); the root itself is
excluded, since the closure loop skips id 0 and only overwrites a parent
when the child's `parent_id` is strictly positive. -/
theorem C2_propagation_closure (cwd : String) (fs : FSList)
    (s s' : MState) (h : buildSimulationTree cwd fs s = some s')
    (hfix : (closurePass s'.instDict).2 = false) :
    ∀ (j : Int) (t : Task), dlookup s'.instDict j = some t →
      (t.status = .RUN ∨ t.status = .DONE) →
      ∀ a, Anc s'.instDict t a → a.id ≠ 0 →
        (a.status = .RUN ∨ a.status = .DONE) := by
  intro j t hl hrd a hanc ha0
  have hroot := (build_inv h).2.2.2.1
  have hst := (anc_closure hroot hfix j t hl hrd a hanc).2 ha0
  rw [hst]
  exact hrd

/-- The state produced by building over `fsW2`. -/
def sW2 : MState := (buildSimulationTree "/r" fsW2 s0).getD s0

theorem C2_propagation_closure_witness :
    buildSimulationTree "/r" fsW2 s0 = some sW2 ∧
      (closurePass sW2.instDict).2 = false ∧
      OptP (dlookup sW2.instDict 2) (fun c =>
        c.status = .RUN ∧ c.parent_id = 1) ∧
      (∀ (j : Int) (t : Task), dlookup sW2.instDict j = some t →
        (t.status = .RUN ∨ t.status = .DONE) →
        ∀ a, Anc sW2.instDict t a → a.id ≠ 0 →
          (a.status = .RUN ∨ a.status = .DONE)) :=
  ⟨by decide, by decide, by decide,
    C2_propagation_closure "/r" fsW2 s0 sW2 (by decide) (by decide)⟩

/-! ### C7: reverting a propagated status within one cycle -/

/-- The first top-level directory of `fsC2` (probing RUNNING). -/
def dirA : FSDir := .node "a" ⟨.RUN, 10, 110, 1, false, true⟩ .nil

/-- The second top-level directory of `fsC2` (probing STOPPED). -/
def dirB : FSDir := .node "b" ⟨.STOP, 5, 105, 2, false, true⟩ .nil

/-- C7 (counterexample to the claim as stated): during the visit of the scan
root over entries `a` (RUNNING) and `b` (STOPPED), the eager single-hop
propagation at `a`'s discovery sets the root's status to RUNNING, and the
next step of the same cycle — the eager assignment at `b`'s discovery —
reverts it to STOPPED.  The visit call is literally the composition of the
two discovery steps. -/
theorem C7_counterexample :
    visitDir (initialState "/r" s0) "/r" [dirA, dirB] =
        ((discover (initialState "/r" s0) "/r" dirA) >>= fun s1 =>
          discover s1 "/r" dirB) ∧
      OptP (discover (initialState "/r" s0) "/r" dirA) (fun s1 =>
        OptP (dlookup s1.instDict 0) (fun r => r.status = .RUN) ∧
        OptP (discover s1 "/r" dirB) (fun s2 =>
          OptP (dlookup s2.instDict 0) (fun r => r.status = .STOP))) := by
  decide

theorem closureStep_keeps_rd {acc : List Task × Bool} (k : Nat) {i : Int}
    {t : Task} (hl : dlookup acc.1 i = some t)
    (hrd : t.status = .RUN ∨ t.status = .DONE) :
    OptP (dlookup (closureStep acc k).1 i) (fun u =>
      u.status = .RUN ∨ u.status = .DONE) := by
  unfold closureStep
  split
  · rw [hl]; exact hrd
  · split
    · rw [hl]; exact hrd
    · rename_i inst hinst
      split
      · rename_i hird
        split
        · split
          · rw [hl]; exact hrd
          · rename_i p hp
            split
            · rw [dlookup_dupdate _ _ _
                (fun q => { q with status := inst.status }) (fun q => rfl),
                hl]
              simp only [Option.map_some']
              by_cases hc : (t.id : Int) = inst.parent_id
              · rw [if_pos hc]
                show inst.status = .RUN ∨ inst.status = .DONE
                exact hird
              · rw [if_neg hc]
                exact hrd
            · rw [hl]; exact hrd
        · rw [hl]; exact hrd
      · rw [hl]; exact hrd

theorem foldl_keeps_rd (ks : List Nat) :
    ∀ (acc : List Task × Bool) (i : Int) (t : Task),
      dlookup acc.1 i = some t → (t.status = .RUN ∨ t.status = .DONE) →
      OptP (dlookup (List.foldl closureStep acc ks).1 i) (fun u =>
        u.status = .RUN ∨ u.status = .DONE) := by
  induction ks with
  | nil =>
    intro acc i t hl hrd
    rw [List.foldl_nil, hl]
    exact hrd
  | cons k ks ih =>
    intro acc i t hl hrd
    rw [List.foldl_cons]
    have hstep := closureStep_keeps_rd k hl hrd
    cases hlk : dlookup (closureStep acc k).1 i with
    | none => rw [hlk] at hstep; cases hstep
    | some u =>
      rw [hlk] at hstep
      exact ih (closureStep acc k) i u hlk hstep

theorem closurePass_keeps_rd {d : List Task} {i : Int} {t : Task}
    (hl : dlookup d i = some t)
    (hrd : t.status = .RUN ∨ t.status = .DONE) :
    OptP (dlookup (closurePass d).1 i) (fun u =>
      u.status = .RUN ∨ u.status = .DONE) := by
  unfold closurePass
  exact foldl_keeps_rd (d.map (·.id)) (d, false) i t hl hrd

/-- C7 (amended): within the status-propagation closure loop, a node whose
status holds RUNNING or DONE — whether it held it when the loop started or
was set by a propagation step — is never changed by a later step of the
loop to any value outside {RUNNING, DONE} (every assignment the loop makes
writes a RUNNING-or-DONE value); the claim fails for the eager single-hop
propagation of the traversal, which CAN overwrite a previously propagated
RUNNING/DONE parent status with the next child's status
(`C7_counterexample`). -/
theorem C7_closure_no_revert :
    (∀ (acc : List Task × Bool) (k : Nat) (i : Int) (t : Task),
        dlookup acc.1 i = some t →
        (t.status = .RUN ∨ t.status = .DONE) →
        OptP (dlookup (closureStep acc k).1 i) (fun u =>
          u.status = .RUN ∨ u.status = .DONE)) ∧
      (∀ (n : Nat) (d : List Task) (i : Int) (t : Task),
        dlookup d i = some t → (t.status = .RUN ∨ t.status = .DONE) →
        OptP (dlookup (closureRun n d).1 i) (fun u =>
          u.status = .RUN ∨ u.status = .DONE)) := by
  refine ⟨fun acc k i t hl hrd => closureStep_keeps_rd k hl hrd, ?_⟩
  intro n
  induction n with
  | zero =>
    intro d i t hl hrd
    rw [show (closureRun 0 d).1 = d from rfl, hl]
    exact hrd
  | succ n ih =>
    intro d i t hl hrd
    unfold closureRun
    split
    · rename_i d1 heq
      have hpass := closurePass_keeps_rd hl hrd
      rw [heq] at hpass
      cases hlk : dlookup d1 i with
      | none => rw [show (d1, true).1 = d1 from rfl, hlk] at hpass; cases hpass
      | some u =>
        rw [show (d1, true).1 = d1 from rfl, hlk] at hpass
        rcases hr : closureRun n d1 with ⟨d2, m⟩
        show OptP (dlookup d2 i) _
        have := ih d1 i u hlk hpass
        rw [hr] at this
        exact this
    · rename_i d1 heq
      have hpass := closurePass_keeps_rd hl hrd
      rw [heq] at hpass
      exact hpass

/-- A RUNNING top-level task used by the C7 witness. -/
def tRunW : Task :=
  { id := 1, name := "r1", fulldir := "/r/r1", status := .RUN,
    parent_id := 0, level := 1, cid := -1, t := 5, t_max_extended := 100,
    niceness := 1, restarts := [], errFile := false, gen := 1 }

theorem C7_closure_no_revert_witness :
    dlookup [tRoot, tRunW] 1 = some tRunW ∧
      (tRunW.status = .RUN ∨ tRunW.status = .DONE) ∧
      OptP (dlookup (closureRun 30 [tRoot, tRunW]).1 1) (fun u =>
        u.status = .RUN ∨ u.status = .DONE) :=
  ⟨by decide, by decide,
    C7_closure_no_revert.2 30 [tRoot, tRunW] 1 tRunW (by decide)
      (by decide)⟩

/-! ### C8: convergence of the propagation loop

The loop oscillates when siblings carry distinct RUNNING/DONE statuses (the
counterexample below), so convergence within the bound is proved for
forests whose RUNNING/DONE statuses all agree (`Uni`).  The development
tracks how a pass evolves the dict (`StEvol`: statuses may only be
overwritten with the common status `σ`), which entries carry `σ`
(`sigAt`), where `σ` entries can come from (`Chars`: they sit on a
positive-parent ancestor chain above an original `σ` node, `PAnc`), and how
far up the chains `σ` has propagated after `j` passes (`SigSet`). -/

/-- Pointwise correspondence between the dict `d` and an evolved dict `e`:
entries agree except that a status may have been overwritten with `σ`. -/
def StEvol (σ : Status) : List Task → List Task → Prop :=
  List.Forall₂ (fun t u => u = { t with status := u.status } ∧
    (u.status = t.status ∨ u.status = σ))

/-- All RUNNING/DONE statuses in `e` equal `σ`. -/
def Uni (σ : Status) (e : List Task) : Prop :=
  ∀ t ∈ e, (t.status = .RUN ∨ t.status = .DONE) → t.status = σ

/-- The entry found under key `j` in `e` has status `σ`. -/
def sigAt (σ : Status) (e : List Task) (j : Int) : Prop :=
  OptP (dlookup e j) (fun u => u.status = σ)

/-- `PAnc d m y p`: `p` is reached from `y` by following `m` parent links,
each of them strictly positive (the chain never passes through the root). -/
inductive PAnc (d : List Task) : Nat → Task → Task → Prop where
  | zero {t : Task} : t ∈ d → PAnc d 0 t t
  | succ {m : Nat} {t u p : Task} : PAnc d m t u → u.parent_id > 0 →
      dlookup d u.parent_id = some p → PAnc d (m + 1) t p

/-- Every `σ` entry of `e` lies on a positive-parent chain above a node
that already carried `σ` in `d`. -/
def Chars (σ : Status) (d e : List Task) : Prop :=
  ∀ (j : Int) (u : Task), dlookup e j = some u → u.status = σ →
    ∃ (y t : Task) (m : Nat), y ∈ d ∧ y.status = σ ∧ PAnc d m y t ∧
      (t.id : Int) = j

/-- After `j` passes, every positive-parent ancestor within distance `j` of
an original `σ` node carries `σ`. -/
def SigSet (σ : Status) (d : List Task) (j : Nat) (e : List Task) : Prop :=
  ∀ (y p : Task) (m : Nat), y ∈ d → y.status = σ → 1 ≤ m → m ≤ j →
    PAnc d m y p → sigAt σ e (p.id : Int)

theorem StEvol_refl (σ : Status) (d : List Task) : StEvol σ d d := by
  induction d with
  | nil => exact List.Forall₂.nil
  | cons t d ih => exact List.Forall₂.cons ⟨rfl, Or.inl rfl⟩ ih

theorem StEvol_trans {σ : Status} {d e f : List Task}
    (h1 : StEvol σ d e) (h2 : StEvol σ e f) : StEvol σ d f := by
  induction h1 generalizing f with
  | nil =>
    cases h2
    exact List.Forall₂.nil
  | cons h1h h1t ih =>
    cases h2 with
    | cons h2h h2t =>
      refine List.Forall₂.cons ⟨?_, ?_⟩ (ih h2t)
      · rw [h2h.1, h1h.1]
      · rcases h2h.2 with hv | hv
        · rw [hv]
          exact h1h.2
        · exact Or.inr hv

theorem StEvol_id_eq {t u : Task}
    (h : u = { t with status := u.status }) :
    u.id = t.id ∧ u.parent_id = t.parent_id ∧ u.level = t.level := by
  rw [h]
  exact ⟨rfl, rfl, rfl⟩

theorem StEvol_dlookup {σ : Status} {d e : List Task} (h : StEvol σ d e)
    (j : Int) :
    (dlookup d j = none ∧ dlookup e j = none) ∨
      (∃ t u, dlookup d j = some t ∧ dlookup e j = some u ∧
        u = { t with status := u.status } ∧
        (u.status = t.status ∨ u.status = σ)) := by
  induction h with
  | nil => exact Or.inl ⟨rfl, rfl⟩
  | cons hh ht ih =>
    rename_i t u d' e'
    have hid : u.id = t.id := (StEvol_id_eq hh.1).1
    by_cases hj : (t.id : Int) = j
    · refine Or.inr ⟨t, u, ?_, ?_, hh.1, hh.2⟩
      · exact List.find?_cons_of_pos _ (by simpa using hj)
      · exact List.find?_cons_of_pos _ (by simp [hid, hj])
    · have h1 : dlookup (t :: d') j = dlookup d' j :=
        List.find?_cons_of_neg _ (by simpa using hj)
      have h2 : dlookup (u :: e') j = dlookup e' j :=
        List.find?_cons_of_neg _ (by simp [hid]; exact fun hx => hj hx)
      rw [show dlookup (t :: d') j = dlookup d' j from h1,
          show dlookup (u :: e') j = dlookup e' j from h2]
      exact ih

theorem StEvol_map_id {σ : Status} {d e : List Task} (h : StEvol σ d e) :
    e.map (·.id) = d.map (·.id) := by
  induction h with
  | nil => rfl
  | cons hh ht ih =>
    simp only [List.map_cons, ih, (StEvol_id_eq hh.1).1]

theorem StEvol_sigAt {σ : Status} {d e : List Task} (h : StEvol σ d e)
    {j : Int} (hs : sigAt σ d j) : sigAt σ e j := by
  rcases StEvol_dlookup h j with ⟨h1, h2⟩ | ⟨t, u, h1, h2, h3, h4⟩
  · unfold sigAt at hs
    rw [h1] at hs
    cases hs
  · unfold sigAt at hs ⊢
    rw [h1] at hs
    rw [h2]
    show u.status = σ
    rcases h4 with hv | hv
    · rw [hv]
      exact hs
    · exact hv

theorem PAnc_mem {d : List Task} {m : Nat} {y p : Task}
    (h : PAnc d m y p) : p ∈ d := by
  cases h with
  | zero ht => exact ht
  | succ hanc hpid hp => exact dlookup_mem hp

theorem PAnc_zero_eq {d : List Task} {y p : Task} (h : PAnc d 0 y p) :
    p = y := by
  cases h
  rfl

theorem StEvol_dupdate_status {σ : Status} {e : List Task} {pid : Int}
    {st : Status} (hst : st = σ) :
    StEvol σ e (dupdate e pid (fun q => { q with status := st })) := by
  induction e with
  | nil => exact List.Forall₂.nil
  | cons t e ih =>
    unfold dupdate at ih ⊢
    rw [List.map_cons]
    refine List.Forall₂.cons ?_ ih
    by_cases hc : (t.id : Int) = pid
    · rw [if_pos hc]
      exact ⟨rfl, Or.inr hst⟩
    · rw [if_neg hc]
      exact ⟨rfl, Or.inl rfl⟩

theorem Uni_dupdate_status {σ : Status} {e : List Task} {pid : Int}
    {st : Status} (hst : st = σ) (hu : Uni σ e) :
    Uni σ (dupdate e pid (fun q => { q with status := st })) := by
  intro u hmem hrd
  obtain ⟨w, hw, hqw⟩ := mem_dupdate hmem
  by_cases hc : (w.id : Int) = pid
  · rw [if_pos hc] at hqw
    rw [hqw]
    exact hst
  · rw [if_neg hc] at hqw
    rw [hqw] at hrd ⊢
    exact hu w hw hrd

theorem closureStep_evol {σ : Status} {acc : List Task × Bool} (k : Nat)
    (hu : Uni σ acc.1) :
    StEvol σ acc.1 (closureStep acc k).1 ∧ Uni σ (closureStep acc k).1 := by
  unfold closureStep
  split
  · exact ⟨StEvol_refl σ acc.1, hu⟩
  · split
    · exact ⟨StEvol_refl σ acc.1, hu⟩
    · rename_i inst hinst
      split
      · rename_i hird
        split
        · split
          · exact ⟨StEvol_refl σ acc.1, hu⟩
          · split
            · have hsig : inst.status = σ :=
                hu inst (dlookup_mem hinst) hird
              exact ⟨StEvol_dupdate_status hsig,
                Uni_dupdate_status hsig hu⟩
            · exact ⟨StEvol_refl σ acc.1, hu⟩
        · exact ⟨StEvol_refl σ acc.1, hu⟩
      · exact ⟨StEvol_refl σ acc.1, hu⟩

theorem foldl_evol {σ : Status} (ks : List Nat) :
    ∀ acc : List Task × Bool, Uni σ acc.1 →
      StEvol σ acc.1 (List.foldl closureStep acc ks).1 ∧
        Uni σ (List.foldl closureStep acc ks).1 := by
  induction ks with
  | nil =>
    intro acc hu
    exact ⟨StEvol_refl σ acc.1, hu⟩
  | cons k ks ih =>
    intro acc hu
    rw [List.foldl_cons]
    have h1 := closureStep_evol k hu
    have h2 := ih (closureStep acc k) h1.2
    exact ⟨StEvol_trans h1.1 h2.1, h2.2⟩

theorem closurePass_evol {σ : Status} {d : List Task} (hu : Uni σ d) :
    StEvol σ d (closurePass d).1 ∧ Uni σ (closurePass d).1 := by
  unfold closurePass
  exact foldl_evol (d.map (·.id)) (d, false) hu

theorem PAnc_level {d : List Task}
    (hlvl : ∀ t ∈ d, t.parent_id > 0 →
      OptP (dlookup d t.parent_id) (fun q => q.level + 1 = t.level)) :
    ∀ {m : Nat} {y p : Task}, PAnc d m y p → p.level + m = y.level := by
  intro m y p h
  induction h with
  | zero ht => rfl
  | succ hanc hpid hp ih =>
    rename_i u p'
    have := hlvl u (PAnc_mem hanc) hpid
    rw [hp] at this
    have hl : p'.level + 1 = u.level := this
    omega

theorem closureStep_writes {σ : Status} {d₀ : List Task}
    (hnd : (d₀.map (·.id)).Nodup) (hσ : σ = .RUN ∨ σ = .DONE)
    {acc : List Task × Bool} (hev : StEvol σ d₀ acc.1)
    {u p : Task} (hud : u ∈ d₀) (h0 : u.id ≠ 0)
    (hsig : sigAt σ acc.1 (u.id : Int)) (hpid : u.parent_id > 0)
    (hp : dlookup d₀ u.parent_id = some p) :
    sigAt σ (closureStep acc u.id).1 u.parent_id := by
  have hd0u : dlookup d₀ (u.id : Int) = some u := dlookup_of_mem_nodup hnd hud
  rcases StEvol_dlookup hev (u.id : Int) with ⟨h1, _⟩ | ⟨t, ue, h1, h2, h3, _⟩
  · rw [hd0u] at h1
    cases h1
  · have ht : t = u := by
      rw [hd0u] at h1
      exact (Option.some_inj.1 h1).symm
    rw [ht] at h3
    have hues : ue.status = σ := by
      unfold sigAt at hsig
      rw [h2] at hsig
      exact hsig
    have huep : ue.parent_id = u.parent_id := (StEvol_id_eq h3).2.1
    rcases StEvol_dlookup hev u.parent_id with ⟨hq1, _⟩ | ⟨p0, pe, hq1, hq2, hq3, _⟩
    · rw [hp] at hq1
      cases hq1
    · unfold closureStep
      rw [if_neg h0]
      simp only [h2]
      rw [if_pos (by rw [hues]; exact hσ)]
      rw [if_pos (by rw [huep]; exact hpid)]
      rw [huep]
      simp only [hq2]
      by_cases hne : pe.status = σ
      · rw [if_neg (by rw [hne, hues]; exact fun hx => hx rfl)]
        unfold sigAt
        rw [hq2]
        exact hne
      · rw [if_pos (by rw [hues]; exact fun hx => hne hx)]
        unfold sigAt
        rw [dlookup_dupdate _ _ _
          (fun q => { q with status := ue.status }) (fun q => rfl), hq2]
        simp only [Option.map_some']
        rw [if_pos (dlookup_id hq2)]
        show ue.status = σ
        exact hues

theorem Chars_closureStep {σ : Status} {d₀ : List Task}
    (hnd : (d₀.map (·.id)).Nodup) {acc : List Task × Bool} (k : Nat)
    (hu : Uni σ acc.1) (hev : StEvol σ d₀ acc.1)
    (hch : Chars σ d₀ acc.1) : Chars σ d₀ (closureStep acc k).1 := by
  unfold closureStep
  split
  · exact hch
  · split
    · exact hch
    · rename_i inst hinst
      split
      · rename_i hird
        split
        · rename_i hpidpos
          split
          · exact hch
          · rename_i pe hpe
            split
            · intro j w hlw hws
              rw [dlookup_dupdate _ _ _
                (fun q => { q with status := inst.status })
                (fun q => rfl)] at hlw
              cases hl0 : dlookup acc.1 j with
              | none =>
                rw [hl0] at hlw
                cases hlw
              | some w0 =>
                rw [hl0] at hlw
                simp only [Option.map_some'] at hlw
                have hw : w = if (w0.id : Int) = inst.parent_id
                    then { w0 with status := inst.status } else w0 :=
                  (Option.some_inj.1 hlw).symm
                by_cases hc : (w0.id : Int) = inst.parent_id
                · have hj : j = inst.parent_id := by
                    have := dlookup_id hl0
                    omega
                  have hinsts : inst.status = σ :=
                    hu inst (dlookup_mem hinst) hird
                  obtain ⟨y, t, m, hy, hys, hanc, htid⟩ :=
                    hch (k : Int) inst hinst hinsts
                  have hd0t : dlookup d₀ ((k : Nat) : Int) = some t := by
                    have := dlookup_of_mem_nodup hnd (PAnc_mem hanc)
                    rw [htid] at this
                    exact this
                  have hpar : inst.parent_id = t.parent_id := by
                    rcases StEvol_dlookup hev ((k : Nat) : Int) with
                      ⟨ha, _⟩ | ⟨t2, u2, ht2, hu2, hrel, _⟩
                    · rw [hd0t] at ha
                      cases ha
                    · have het : t2 = t := by
                        rw [hd0t] at ht2
                        exact (Option.some_inj.1 ht2).symm
                      have heu : u2 = inst := by
                        rw [hinst] at hu2
                        exact (Option.some_inj.1 hu2).symm
                      rw [het] at hrel
                      rw [heu] at hrel
                      exact (StEvol_id_eq hrel).2.1
                  rcases StEvol_dlookup hev inst.parent_id with
                    ⟨ha, hb⟩ | ⟨p0, pe2, hp0, hpe2, _, _⟩
                  · rw [hpe] at hb
                    cases hb
                  · refine ⟨y, p0, m + 1, hy, hys,
                      PAnc.succ hanc (by rw [← hpar]; exact hpidpos)
                        (by rw [← hpar]; exact hp0), ?_⟩
                    have := dlookup_id hp0
                    omega
                · rw [if_neg hc] at hw
                  rw [hw] at hws
                  exact hch j w0 hl0 hws
            · exact hch
        · exact hch
      · exact hch

theorem Chars_foldl {σ : Status} {d₀ : List Task}
    (hnd : (d₀.map (·.id)).Nodup) (ks : List Nat) :
    ∀ acc : List Task × Bool, Uni σ acc.1 → StEvol σ d₀ acc.1 →
      Chars σ d₀ acc.1 → Chars σ d₀ (List.foldl closureStep acc ks).1 := by
  induction ks with
  | nil =>
    intro acc _ _ hch
    exact hch
  | cons k ks ih =>
    intro acc hu hev hch
    rw [List.foldl_cons]
    have hstep := closureStep_evol k hu
    exact ih (closureStep acc k) hstep.2 (StEvol_trans hev hstep.1)
      (Chars_closureStep hnd k hu hev hch)

theorem Chars_closurePass {σ : Status} {d₀ : List Task}
    (hnd : (d₀.map (·.id)).Nodup) {d : List Task} (hu : Uni σ d)
    (hev : StEvol σ d₀ d) (hch : Chars σ d₀ d) :
    Chars σ d₀ (closurePass d).1 := by
  unfold closurePass
  exact Chars_foldl hnd (d.map (·.id)) (d, false) hu hev hch

theorem foldl_writes_parent {σ : Status} {d₀ : List Task}
    (hnd : (d₀.map (·.id)).Nodup) (hσ : σ = .RUN ∨ σ = .DONE)
    (ks : List Nat) :
    ∀ (acc : List Task × Bool), Uni σ acc.1 → StEvol σ d₀ acc.1 →
      ∀ (u p : Task), u ∈ d₀ → u.id ∈ ks → u.id ≠ 0 →
        sigAt σ acc.1 (u.id : Int) → u.parent_id > 0 →
        dlookup d₀ u.parent_id = some p →
        sigAt σ (List.foldl closureStep acc ks).1 u.parent_id := by
  induction ks with
  | nil =>
    intro acc _ _ u p _ hk
    exact absurd hk (List.not_mem_nil _)
  | cons k ks ih =>
    intro acc hu hev u p hud hk h0 hsig hpid hp
    rw [List.foldl_cons]
    have hstep := closureStep_evol k hu
    by_cases hku : k = u.id
    · subst hku
      have hw := closureStep_writes hnd hσ hev hud h0 hsig hpid hp
      have hrest := foldl_evol ks (closureStep acc u.id) hstep.2
      exact StEvol_sigAt hrest.1 hw
    · have hk' : u.id ∈ ks := by
        rcases List.mem_cons.1 hk with h | h
        · exact absurd h.symm hku
        · exact h
      exact ih (closureStep acc k) hstep.2 (StEvol_trans hev hstep.1) u p
        hud hk' h0 (StEvol_sigAt hstep.1 hsig) hpid hp

theorem SigSet_advance {σ : Status} {d₀ : List Task}
    (hnd : (d₀.map (·.id)).Nodup)
    (hroot : ∀ t ∈ d₀, t.id = 0 → t.parent_id < 0)
    (hσ : σ = .RUN ∨ σ = .DONE) {e : List Task} {j : Nat}
    (hu : Uni σ e) (hev : StEvol σ d₀ e) (hs : SigSet σ d₀ j e) :
    SigSet σ d₀ (j + 1) (closurePass e).1 := by
  intro y p m hy hys hm1 hmj hanc
  have hpassev := closurePass_evol hu
  by_cases hmle : m ≤ j
  · exact StEvol_sigAt hpassev.1 (hs y p m hy hys hm1 hmle hanc)
  · have hmeq : m = j + 1 := by omega
    subst hmeq
    cases hanc with
    | succ hanc' hupid hup =>
      rename_i u
      have hsigu : sigAt σ e (u.id : Int) := by
        by_cases hj0 : j = 0
        · subst hj0
          have huy : u = y := PAnc_zero_eq hanc'
          have hd0 : dlookup d₀ (u.id : Int) = some u :=
            dlookup_of_mem_nodup hnd (PAnc_mem hanc')
          rcases StEvol_dlookup hev (u.id : Int) with
            ⟨h1, _⟩ | ⟨t, ue, h1, h2, h3, h4⟩
          · rw [hd0] at h1
            cases h1
          · have ht : t = u := by
              rw [hd0] at h1
              exact (Option.some_inj.1 h1).symm
            unfold sigAt
            rw [h2]
            show ue.status = σ
            rcases h4 with hv | hv
            · rw [hv, ht, huy]
              exact hys
            · exact hv
        · exact hs y u j hy hys (by omega) (Nat.le_refl j) hanc'
      have hu0 : u.id ≠ 0 := by
        intro h0
        have := hroot u (PAnc_mem hanc') h0
        omega
      have hkey : u.id ∈ e.map (·.id) := by
        rw [StEvol_map_id hev]
        exact List.mem_map_of_mem _ (PAnc_mem hanc')
      have hw := foldl_writes_parent hnd hσ (e.map (·.id)) (e, false) hu
        hev u p (PAnc_mem hanc') hkey hu0 hsigu hupid hup
      have hpid : ((p.id : Int)) = u.parent_id := dlookup_id hup
      unfold sigAt
      rw [hpid]
      unfold closurePass
      exact hw

theorem StEvol_corr {σ : Status} {d₀ : List Task}
    (hnd : (d₀.map (·.id)).Nodup) {e : List Task}
    (hev : StEvol σ d₀ e) {i : Int} {inst t : Task}
    (hinst : dlookup e i = some inst) (htmem : t ∈ d₀)
    (htid : (t.id : Int) = i) : inst.parent_id = t.parent_id := by
  have hd0t : dlookup d₀ i = some t := by
    have := dlookup_of_mem_nodup hnd htmem
    rw [htid] at this
    exact this
  rcases StEvol_dlookup hev i with ⟨ha, _⟩ | ⟨t2, u2, ht2, hu2, hrel, _⟩
  · rw [hd0t] at ha
    cases ha
  · have het : t2 = t := by
      rw [hd0t] at ht2
      exact (Option.some_inj.1 ht2).symm
    have heu : u2 = inst := by
      rw [hinst] at hu2
      exact (Option.some_inj.1 hu2).symm
    rw [het] at hrel
    rw [heu] at hrel
    exact (StEvol_id_eq hrel).2.1

theorem foldl_id_of_steps (ks : List Nat) {e : List Task}
    (h : ∀ i, closureStep (e, false) i = (e, false)) :
    List.foldl closureStep (e, false) ks = (e, false) := by
  induction ks with
  | nil => rfl
  | cons k ks ih =>
    rw [List.foldl_cons, h k]
    exact ih

theorem closurePass_id_of_steps {e : List Task}
    (h : ∀ i, closureStep (e, false) i = (e, false)) :
    closurePass e = (e, false) := by
  unfold closurePass
  exact foldl_id_of_steps _ h

theorem closurePass_clean_of_sigset {σ : Status} {d₀ : List Task}
    (hnd : (d₀.map (·.id)).Nodup)
    (hlvl : ∀ t ∈ d₀, t.parent_id > 0 →
      OptP (dlookup d₀ t.parent_id) (fun q => q.level + 1 = t.level))
    (hpos : ∀ t ∈ d₀, t.id ≠ 0 → 1 ≤ t.level)
    (hdepth : ∀ t ∈ d₀, t.level ≤ 29)
    {e : List Task} (hu : Uni σ e) (hev : StEvol σ d₀ e)
    (hch : Chars σ d₀ e) (hs : SigSet σ d₀ 28 e) :
    (closurePass e).2 = false := by
  have hstep : ∀ i, closureStep (e, false) i = (e, false) := by
    intro i
    unfold closureStep
    split
    · rfl
    · split
      · rfl
      · rename_i inst hinst
        split
        · rename_i hird
          split
          · rename_i hpidpos
            split
            · rfl
            · rename_i pe hpe
              split
              · rename_i hne
                exfalso
                have hinsts : inst.status = σ :=
                  hu inst (dlookup_mem hinst) hird
                obtain ⟨y, t, m, hy, hys, hanc, htid⟩ :=
                  hch (i : Int) inst hinst hinsts
                have hpar : inst.parent_id = t.parent_id :=
                  StEvol_corr hnd hev hinst (PAnc_mem hanc) htid
                rcases StEvol_dlookup hev inst.parent_id with
                  ⟨ha, hb⟩ | ⟨p0, pe2, hp0, hpe2, hrel2, _⟩
                · rw [hpe] at hb
                  cases hb
                · have hanc2 : PAnc d₀ (m + 1) y p0 :=
                    PAnc.succ hanc (by rw [← hpar]; exact hpidpos)
                      (by rw [← hpar]; exact hp0)
                  have hp0level := PAnc_level hlvl hanc2
                  have hp0pos : 1 ≤ p0.level := by
                    apply hpos p0 (dlookup_mem hp0)
                    have h1 := dlookup_id hp0
                    intro h0
                    rw [h0] at h1
                    omega
                  have hbound : m + 1 ≤ 28 := by
                    have := hdepth y hy
                    omega
                  have hsig := hs y p0 (m + 1) hy hys (by omega) hbound hanc2
                  have hkey : ((p0.id : Int)) = inst.parent_id := dlookup_id hp0
                  unfold sigAt at hsig
                  rw [hkey, hpe] at hsig
                  exact hne (by rw [hsig, hinsts])
              · rfl
          · rfl
        · rfl
  have h2 := closurePass_id_of_steps hstep
  rw [h2]

theorem closureRun_fix {σ : Status} {d₀ : List Task}
    (hnd : (d₀.map (·.id)).Nodup)
    (hroot : ∀ t ∈ d₀, t.id = 0 → t.parent_id < 0)
    (hσ : σ = .RUN ∨ σ = .DONE)
    (hlvl : ∀ t ∈ d₀, t.parent_id > 0 →
      OptP (dlookup d₀ t.parent_id) (fun q => q.level + 1 = t.level))
    (hpos : ∀ t ∈ d₀, t.id ≠ 0 → 1 ≤ t.level)
    (hdepth : ∀ t ∈ d₀, t.level ≤ 29) :
    ∀ (n : Nat) (e : List Task) (k : Nat), Uni σ e → StEvol σ d₀ e →
      Chars σ d₀ e → SigSet σ d₀ k e → 29 ≤ k + n →
      (closurePass (closureRun n e).1).2 = false := by
  intro n
  induction n with
  | zero =>
    intro e k hu hev hch hs hk
    show (closurePass e).2 = false
    refine closurePass_clean_of_sigset hnd hlvl hpos hdepth hu hev hch ?_
    intro y p m hy hys h1 h2 hanc
    exact hs y p m hy hys h1 (by omega) hanc
  | succ n ih =>
    intro e k hu hev hch hs hk
    unfold closureRun
    split
    · rename_i d1 heq
      have hpassev := closurePass_evol hu
      rw [heq] at hpassev
      have hud1 : Uni σ d1 := hpassev.2
      have hevd1 : StEvol σ d₀ d1 := StEvol_trans hev hpassev.1
      have hchd1 : Chars σ d₀ d1 := by
        have := Chars_closurePass hnd hu hev hch
        rw [heq] at this
        exact this
      have hsd1 : SigSet σ d₀ (k + 1) d1 := by
        have := SigSet_advance hnd hroot hσ hu hev hs
        rw [heq] at this
        exact this
      rcases hr : closureRun n d1 with ⟨d2, c⟩
      show (closurePass d2).2 = false
      have := ih d1 (k + 1) hud1 hevd1 hchd1 hsd1 (by omega)
      rw [hr] at this
      exact this
    · rename_i d1 heq
      have hflag : (closurePass e).2 = false := by
        rw [heq]
      have hfold : closurePass e = (e, false) := by
        unfold closurePass at hflag ⊢
        exact (foldl_clean_steps (e.map (·.id)) (e, false) hflag).1
      have hd1 : d1 = e := by
        rw [hfold] at heq
        exact congrArg Prod.fst heq.symm
      show (closurePass d1).2 = false
      rw [hd1]
      rw [hfold]

theorem closureRun_count_le : ∀ (n : Nat) (d : List Task),
    (closureRun n d).2 ≤ n := by
  intro n
  induction n with
  | zero =>
    intro d
    exact Nat.le_refl 0
  | succ n ih =>
    intro d
    unfold closureRun
    split
    · rename_i d1 heq
      rcases hr : closureRun n d1 with ⟨d2, c⟩
      show c + 1 ≤ n + 1
      have := ih d1
      rw [hr] at this
      omega
    · show 1 ≤ n + 1
      omega

theorem closureRun_early_stop : ∀ (n : Nat) (e : List Task),
    (closurePass e).2 = false → closureRun (n + 1) e = (e, 1) := by
  intro n e h
  have hfold : closurePass e = (e, false) := by
    unfold closurePass at h ⊢
    exact (foldl_clean_steps (e.map (·.id)) (e, false) h).1
  unfold closureRun
  rw [hfold]

/-- C8 (amended): the status-propagation loop performs at most 30 full
passes, and stops as soon as a full pass modifies no status (`closureRun`
of a state with a clean pass is that state after one pass).  It reaches its
fixed point — the final dict's pass makes no change — within the 30-pass
bound for any forest of depth at most 29 (levels ≤ 29, parent links
decreasing level by one, non-root nodes at level ≥ 1, distinct ids, root
with negative parent) PROVIDED all RUNNING/DONE statuses in the forest
agree; with mixed RUNNING and DONE statuses the loop can oscillate and
exhaust all 30 passes without reaching a fixed point even at depth 2
(`C8_counterexample`). -/
theorem C8_propagation_bound (d : List Task)
    (hnd : (d.map (·.id)).Nodup)
    (hroot : ∀ t ∈ d, t.id = 0 → t.parent_id < 0)
    (hlvl : ∀ t ∈ d, t.parent_id > 0 →
      OptP (dlookup d t.parent_id) (fun q => q.level + 1 = t.level))
    (hpos : ∀ t ∈ d, t.id ≠ 0 → 1 ≤ t.level)
    (hdepth : ∀ t ∈ d, t.level ≤ 29)
    (huni : ∀ t ∈ d, ∀ u ∈ d, (t.status = .RUN ∨ t.status = .DONE) →
      (u.status = .RUN ∨ u.status = .DONE) → t.status = u.status) :
    (closureRun 30 d).2 ≤ 30 ∧
      (∀ (n : Nat) (e : List Task), (closurePass e).2 = false →
        closureRun (n + 1) e = (e, 1)) ∧
      (closurePass (closureRun 30 d).1).2 = false := by
  refine ⟨closureRun_count_le 30 d, closureRun_early_stop, ?_⟩
  by_cases hex : ∃ t, t ∈ d ∧ (t.status = .RUN ∨ t.status = .DONE)
  · obtain ⟨t0, ht0, ht0rd⟩ := hex
    have hσ : t0.status = .RUN ∨ t0.status = .DONE := ht0rd
    have huni' : Uni t0.status d := fun t ht hrd =>
      huni t ht t0 ht0 hrd ht0rd
    have hch0 : Chars t0.status d d := by
      intro j u hlu hus
      exact ⟨u, u, 0, dlookup_mem hlu, hus, PAnc.zero (dlookup_mem hlu),
        dlookup_id hlu⟩
    have hs0 : SigSet t0.status d 0 d := by
      intro y p m _ _ h1 h2 _
      omega
    exact closureRun_fix hnd hroot hσ hlvl hpos hdepth 30 d 0 huni'
      (StEvol_refl t0.status d) hch0 hs0 (by omega)
  · have hstep : ∀ i, closureStep (d, false) i = (d, false) := by
      intro i
      unfold closureStep
      split
      · rfl
      · split
        · rfl
        · rename_i inst hinst
          split
          · rename_i hird
            exact absurd ⟨inst, dlookup_mem hinst, hird⟩ hex
          · rfl
    have hclean : closurePass d = (d, false) := closurePass_id_of_steps hstep
    have hrun : closureRun 30 d = (d, 1) :=
      closureRun_early_stop 29 d (by rw [hclean])
    rw [hrun]
    show (closurePass d).2 = false
    rw [hclean]

/-- A depth-2 forest with a STOPPED parent whose two children carry the
mixed statuses RUNNING and DONE. -/
def fsC8 : FSList :=
  .ofL [.node "p" ⟨.STOP, 0, 100, 1, false, true⟩
    (.ofL [.node "c1" ⟨.RUN, 1, 101, 1, false, true⟩ .nil,
           .node "c2" ⟨.DONE, 2, 102, 1, false, true⟩ .nil])]

/-- C8 (counterexample to the claim as stated): on the depth-2 forest
`fsC8` — every node at level at most 29, well under the claimed depth
bound — the build completes, yet a further full pass over the resulting
dict still modifies a status: the two children keep overwriting their
parent with RUNNING and DONE in alternation, so the propagation loop ran
out of its 30 passes without ever reaching a fixed point. -/
theorem C8_counterexample :
    OptP (buildSimulationTree "/r" fsC8 s0) (fun s =>
      (∀ t ∈ s.instDict, t.level ≤ 29) ∧
      (closurePass s.instDict).2 = true) := by decide

theorem C8_propagation_bound_witness :
    (((sW2.instDict.map (·.id)).Nodup) ∧
      (∀ t ∈ sW2.instDict, t.id = 0 → t.parent_id < 0) ∧
      (∀ t ∈ sW2.instDict, t.parent_id > 0 →
        OptP (dlookup sW2.instDict t.parent_id)
          (fun q => q.level + 1 = t.level)) ∧
      (∀ t ∈ sW2.instDict, t.id ≠ 0 → 1 ≤ t.level) ∧
      (∀ t ∈ sW2.instDict, t.level ≤ 29) ∧
      (∀ t ∈ sW2.instDict, ∀ u ∈ sW2.instDict,
        (t.status = .RUN ∨ t.status = .DONE) →
        (u.status = .RUN ∨ u.status = .DONE) → t.status = u.status)) ∧
    ((closureRun 30 sW2.instDict).2 ≤ 30 ∧
      (∀ (n : Nat) (e : List Task), (closurePass e).2 = false →
        closureRun (n + 1) e = (e, 1)) ∧
      (closurePass (closureRun 30 sW2.instDict).1).2 = false) :=
  ⟨⟨by decide, by decide, by decide, by decide, by decide, by decide⟩,
    C8_propagation_bound sW2.instDict (by decide) (by decide) (by decide)
      (by decide) (by decide) (by decide)⟩

end SiMonV
